import Mathlib

/-
  Verification of the BoardGamePoC chess core (src/core/ChessRules.ts,
  src/core/Reducer.ts, src/core/GameState.ts, src/core/Actions.ts).

  The TypeScript code is shallowly embedded: TS `number` is modelled as
  `Int` (every numeric value the program creates and compares is integral),
  arrays as `List`, `null`-able results as `Option`, and the JS `===`
  comparisons as decidable equality.  Array methods map to their list
  counterparts: `find` to `List.find?`, `findIndex` to the explicit
  `findIndex` below, `splice(k, 1)` to `List.eraseIdx k`, `map` to
  `List.map`, `push` to appending, `some` to `List.any`.
-/

set_option maxHeartbeats 1000000

namespace Chess

/-- Board-relative integer coordinates (GameState.ts, `Position`). -/
structure Position where
  x : Int
  y : Int
deriving DecidableEq, Repr

/-- The six chess piece kinds (GameState.ts, `PieceType`). -/
inductive PieceType where
  | pawn | rook | knight | bishop | queen | king
deriving DecidableEq, Repr

/-- Display state of a board tile (GameState.ts, `Tile.type`):
`normal`, `highlighted`, or `valid-move`. -/
inductive TileType where
  | normal | highlighted | validMove
deriving DecidableEq, Repr

/-- A board tile (GameState.ts, `Tile`). -/
structure Tile where
  id : String
  position : Position
  type : TileType
deriving DecidableEq, Repr

/-- A chess piece (GameState.ts, `Piece`). -/
structure Piece where
  id : String
  position : Position
  playerId : Int
  type : PieceType
  hasMoved : Bool
deriving DecidableEq, Repr

/-- The board record inside `GameState` (GameState.ts). -/
structure Board where
  width : Int
  height : Int
  tiles : List Tile
deriving DecidableEq, Repr

/-- The root game state (GameState.ts, `GameState`). -/
structure GameState where
  board : Board
  pieces : List Piece
  currentPlayer : Int
  selectedPieceId : Option String
  validMoves : List Position
  turnNumber : Int
  capturedPieces : List Piece
deriving DecidableEq, Repr

/-- The closed union of game actions (Actions.ts, `Action`). -/
inductive Action where
  | selectPiece (pieceId : String)
  | deselectPiece
  | movePiece (pieceId : String) (dest : Position)
  | endTurn
  | resetGame
deriving DecidableEq, Repr

/-- ChessRules.ts `isValidPosition`: the position is within the board. -/
def isValidPosition (pos : Position) (s : GameState) : Bool :=
  0 ≤ pos.x && pos.x < s.board.width && 0 ≤ pos.y && pos.y < s.board.height

/-- ChessRules.ts `getPieceAt`: the first piece of `state.pieces` whose
position coordinates equal `pos`, or `none` (the TS `|| null`). -/
def getPieceAt (pos : Position) (s : GameState) : Option Piece :=
  s.pieces.find? (fun p => p.position.x == pos.x && p.position.y == pos.y)

/-- ChessRules.ts `isEnemyAt`: some piece is found at `pos` and its owner
differs from `playerId`. -/
def isEnemyAt (pos : Position) (playerId : Int) (s : GameState) : Bool :=
  match getPieceAt pos s with
  | none => false
  | some p => p.playerId != playerId

/-- ChessRules.ts `isEmpty`: no piece at `pos`. -/
def isEmpty (pos : Position) (s : GameState) : Bool :=
  (getPieceAt pos s).isNone

/-- The pawn's forward direction (ChessRules.ts, the `direction` local of
`getPawnMoves`): player 1 moves up, anyone else down. -/
def pawnDirection (piece : Piece) : Int :=
  if piece.playerId == 1 then 1 else -1

/-- ChessRules.ts `getPawnMoves`.  The pushes happen in source order:
forward one, forward two (first move only, nested inside the empty
forward-one branch), diagonal left capture, diagonal right capture. -/
def getPawnMoves (piece : Piece) (s : GameState) : List Position :=
  let direction : Int := pawnDirection piece
  let x := piece.position.x
  let y := piece.position.y
  let forward1 : Position := ⟨x, y + direction⟩
  let fwd : List Position :=
    if isValidPosition forward1 s && isEmpty forward1 s then
      forward1 ::
        (if !piece.hasMoved then
          let forward2 : Position := ⟨x, y + 2 * direction⟩
          if isValidPosition forward2 s && isEmpty forward2 s then [forward2] else []
        else [])
    else []
  let diagLeft : Position := ⟨x - 1, y + direction⟩
  let dl : List Position :=
    if isValidPosition diagLeft s && isEnemyAt diagLeft piece.playerId s then [diagLeft] else []
  let diagRight : Position := ⟨x + 1, y + direction⟩
  let dr : List Position :=
    if isValidPosition diagRight s && isEnemyAt diagRight piece.playerId s then [diagRight] else []
  fwd ++ dl ++ dr

/-- One sliding scan of the rook/bishop `while (true)` loop, starting at
distance `dist` from the piece.  The loop pushes empty squares, pushes the
first occupied square when enemy-owned, and breaks at the first occupied
square or at the board edge.  The TS loop needs no fuel because each step
moves one square in a fixed nonzero direction, so it leaves the (finite)
board after at most `width + height` steps; `slideAux` receives fuel that
provably exceeds that bound (see `shift_valid_bound`). -/
def slideAux (piece : Piece) (s : GameState) (dx dy : Int) : Nat → Nat → List Position
  | 0, _ => []
  | fuel + 1, dist =>
    let pos : Position :=
      ⟨piece.position.x + dx * (dist : Int), piece.position.y + dy * (dist : Int)⟩
    if isValidPosition pos s then
      match getPieceAt pos s with
      | none => pos :: slideAux piece s dx dy fuel (dist + 1)
      | some target => if target.playerId != piece.playerId then [pos] else []
    else []

/-- Fuel that always suffices for a sliding scan: once a candidate square is
on the board, at most `max width height` further steps stay on the board. -/
def slideFuel (s : GameState) : Nat :=
  s.board.width.toNat + s.board.height.toNat + 2

/-- The four orthogonal directions, in ChessRules.ts source order. -/
def rookDirections : List (Int × Int) := [(0, 1), (0, -1), (1, 0), (-1, 0)]

/-- The four diagonal directions, in ChessRules.ts source order. -/
def bishopDirections : List (Int × Int) := [(1, 1), (1, -1), (-1, 1), (-1, -1)]

/-- ChessRules.ts `getRookMoves`: slide along the four orthogonal
directions, concatenating in direction order. -/
def getRookMoves (piece : Piece) (s : GameState) : List Position :=
  (rookDirections.map (fun d => slideAux piece s d.1 d.2 (slideFuel s) 1)).flatten

/-- ChessRules.ts `getBishopMoves`: slide along the four diagonals. -/
def getBishopMoves (piece : Piece) (s : GameState) : List Position :=
  (bishopDirections.map (fun d => slideAux piece s d.1 d.2 (slideFuel s) 1)).flatten

/-- ChessRules.ts `getQueenMoves`: rook moves followed by bishop moves. -/
def getQueenMoves (piece : Piece) (s : GameState) : List Position :=
  getRookMoves piece s ++ getBishopMoves piece s

/-- The eight knight offsets, in ChessRules.ts source order. -/
def knightOffsets : List (Int × Int) :=
  [(2, 1), (2, -1), (-2, 1), (-2, -1), (1, 2), (1, -2), (-1, 2), (-1, -2)]

/-- The eight king offsets, in ChessRules.ts source order. -/
def kingOffsets : List (Int × Int) :=
  [(0, 1), (0, -1), (1, 0), (-1, 0), (1, 1), (1, -1), (-1, 1), (-1, -1)]

/-- Shared shape of ChessRules.ts `getKnightMoves` / `getKingMoves`: keep
each offset square that is on the board and not occupied by an own piece. -/
def offsetMoves (offsets : List (Int × Int)) (piece : Piece) (s : GameState) : List Position :=
  offsets.filterMap (fun o =>
    let pos : Position := ⟨piece.position.x + o.1, piece.position.y + o.2⟩
    if isValidPosition pos s then
      match getPieceAt pos s with
      | none => some pos
      | some target => if target.playerId != piece.playerId then some pos else none
    else none)

/-- ChessRules.ts `getKnightMoves`. -/
def getKnightMoves (piece : Piece) (s : GameState) : List Position :=
  offsetMoves knightOffsets piece s

/-- ChessRules.ts `getKingMoves`. -/
def getKingMoves (piece : Piece) (s : GameState) : List Position :=
  offsetMoves kingOffsets piece s

/-- ChessRules.ts `getValidMoves`: dispatch on the piece type.  The TS
`default` branch is unreachable because `PieceType` is a closed union. -/
def getValidMoves (piece : Piece) (s : GameState) : List Position :=
  match piece.type with
  | .pawn => getPawnMoves piece s
  | .rook => getRookMoves piece s
  | .knight => getKnightMoves piece s
  | .bishop => getBishopMoves piece s
  | .queen => getQueenMoves piece s
  | .king => getKingMoves piece s

/-- ChessRules.ts `isValidMove`: `to` occurs in the valid-move list. -/
def isValidMove (piece : Piece) (dest : Position) (s : GameState) : Bool :=
  (getValidMoves piece s).any (fun m => m.x == dest.x && m.y == dest.y)

/-- JS `Array.prototype.findIndex`: index of the first element satisfying
`p`, or `none` for the JS `-1`. -/
def findIndex (p : α → Bool) : List α → Option Nat
  | [] => none
  | a :: l => if p a then some 0 else (findIndex p l).map (· + 1)

/-- GameState.ts `createInitialState`: 8×8 board, 64 tiles generated row by
row, the 32 standard pieces, white (player 1) to move, turn 1. -/
def createInitialState : GameState :=
  let width : Int := 8
  let height : Int := 8
  let tiles : List Tile :=
    ((List.range 8).map (fun y =>
      (List.range 8).map (fun x =>
        { id := "tile-" ++ Nat.repr x ++ "-" ++ Nat.repr y,
          position := ⟨(x : Int), (y : Int)⟩,
          type := .normal : Tile }))).flatten
  let pieces : List Piece :=
    [ { id := "w-rook-1", position := ⟨0, 0⟩, playerId := 1, type := .rook, hasMoved := false },
      { id := "w-knight-1", position := ⟨1, 0⟩, playerId := 1, type := .knight, hasMoved := false },
      { id := "w-bishop-1", position := ⟨2, 0⟩, playerId := 1, type := .bishop, hasMoved := false },
      { id := "w-queen", position := ⟨3, 0⟩, playerId := 1, type := .queen, hasMoved := false },
      { id := "w-king", position := ⟨4, 0⟩, playerId := 1, type := .king, hasMoved := false },
      { id := "w-bishop-2", position := ⟨5, 0⟩, playerId := 1, type := .bishop, hasMoved := false },
      { id := "w-knight-2", position := ⟨6, 0⟩, playerId := 1, type := .knight, hasMoved := false },
      { id := "w-rook-2", position := ⟨7, 0⟩, playerId := 1, type := .rook, hasMoved := false },
      { id := "w-pawn-1", position := ⟨0, 1⟩, playerId := 1, type := .pawn, hasMoved := false },
      { id := "w-pawn-2", position := ⟨1, 1⟩, playerId := 1, type := .pawn, hasMoved := false },
      { id := "w-pawn-3", position := ⟨2, 1⟩, playerId := 1, type := .pawn, hasMoved := false },
      { id := "w-pawn-4", position := ⟨3, 1⟩, playerId := 1, type := .pawn, hasMoved := false },
      { id := "w-pawn-5", position := ⟨4, 1⟩, playerId := 1, type := .pawn, hasMoved := false },
      { id := "w-pawn-6", position := ⟨5, 1⟩, playerId := 1, type := .pawn, hasMoved := false },
      { id := "w-pawn-7", position := ⟨6, 1⟩, playerId := 1, type := .pawn, hasMoved := false },
      { id := "w-pawn-8", position := ⟨7, 1⟩, playerId := 1, type := .pawn, hasMoved := false },
      { id := "b-pawn-1", position := ⟨0, 6⟩, playerId := 2, type := .pawn, hasMoved := false },
      { id := "b-pawn-2", position := ⟨1, 6⟩, playerId := 2, type := .pawn, hasMoved := false },
      { id := "b-pawn-3", position := ⟨2, 6⟩, playerId := 2, type := .pawn, hasMoved := false },
      { id := "b-pawn-4", position := ⟨3, 6⟩, playerId := 2, type := .pawn, hasMoved := false },
      { id := "b-pawn-5", position := ⟨4, 6⟩, playerId := 2, type := .pawn, hasMoved := false },
      { id := "b-pawn-6", position := ⟨5, 6⟩, playerId := 2, type := .pawn, hasMoved := false },
      { id := "b-pawn-7", position := ⟨6, 6⟩, playerId := 2, type := .pawn, hasMoved := false },
      { id := "b-pawn-8", position := ⟨7, 6⟩, playerId := 2, type := .pawn, hasMoved := false },
      { id := "b-rook-1", position := ⟨0, 7⟩, playerId := 2, type := .rook, hasMoved := false },
      { id := "b-knight-1", position := ⟨1, 7⟩, playerId := 2, type := .knight, hasMoved := false },
      { id := "b-bishop-1", position := ⟨2, 7⟩, playerId := 2, type := .bishop, hasMoved := false },
      { id := "b-queen", position := ⟨3, 7⟩, playerId := 2, type := .queen, hasMoved := false },
      { id := "b-king", position := ⟨4, 7⟩, playerId := 2, type := .king, hasMoved := false },
      { id := "b-bishop-2", position := ⟨5, 7⟩, playerId := 2, type := .bishop, hasMoved := false },
      { id := "b-knight-2", position := ⟨6, 7⟩, playerId := 2, type := .knight, hasMoved := false },
      { id := "b-rook-2", position := ⟨7, 7⟩, playerId := 2, type := .rook, hasMoved := false } ]
  { board := { width := width, height := height, tiles := tiles },
    pieces := pieces,
    currentPlayer := 1,
    selectedPieceId := none,
    validMoves := [],
    turnNumber := 1,
    capturedPieces := [] }

/-- Reducer.ts `applyAction`: the pure state-transition function.  Every
rejection path returns the input state unchanged.  The two `| none => s`
fallbacks inside `MOVE_PIECE` correspond to array accesses the TS code
performs after a successful `findIndex`; they are provably unreachable
(the looked-up indices are always in bounds there). -/
def applyAction (s : GameState) (a : Action) : GameState :=
  match a with
  | .selectPiece pid =>
    match s.pieces.find? (fun p => p.id == pid) with
    | none => s
    | some piece =>
      if piece.playerId != s.currentPlayer then s
      else
        let validMoves := getValidMoves piece s
        let newTiles := s.board.tiles.map (fun tile =>
          { tile with
            type := if validMoves.any (fun m => m.x == tile.position.x && m.y == tile.position.y)
              then TileType.validMove else TileType.normal })
        { s with
          selectedPieceId := some pid,
          validMoves := validMoves,
          board := { s.board with tiles := newTiles } }
  | .deselectPiece =>
    { s with
      selectedPieceId := none,
      validMoves := [],
      board := { s.board with tiles := s.board.tiles.map (fun t => { t with type := .normal }) } }
  | .movePiece pid dest =>
    match findIndex (fun p => p.id == pid) s.pieces with
    | none => s
    | some i =>
      match s.pieces[i]? with
      | none => s
      | some piece =>
        if piece.playerId != s.currentPlayer then s
        else if !isValidMove piece dest s then s
        else
          let moveData : List Piece × List Piece :=
            match findIndex (fun p => p.position.x == dest.x && p.position.y == dest.y) s.pieces with
            | some k =>
              let newCaptured :=
                match s.pieces[k]? with
                | some captured => s.capturedPieces ++ [captured]
                | none => s.capturedPieces
              let arr := s.pieces.eraseIdx k
              let adjusted := if k < i then i - 1 else i
              let newPieces :=
                match arr[adjusted]? with
                | some m => arr.set adjusted { m with position := dest, hasMoved := true }
                | none => arr
              (newPieces, newCaptured)
            | none =>
              (s.pieces.set i { piece with position := dest, hasMoved := true }, s.capturedPieces)
          { s with
            pieces := moveData.1,
            capturedPieces := moveData.2,
            currentPlayer := if s.currentPlayer == 1 then 2 else 1,
            selectedPieceId := none,
            validMoves := [],
            turnNumber := if s.currentPlayer == 2 then s.turnNumber + 1 else s.turnNumber,
            board := { s.board with
              tiles := s.board.tiles.map (fun t => { t with type := .normal }) } }
  | .endTurn =>
    { s with
      currentPlayer := if s.currentPlayer == 1 then 2 else 1,
      selectedPieceId := none,
      validMoves := [],
      turnNumber := if s.currentPlayer == 2 then s.turnNumber + 1 else s.turnNumber,
      board := { s.board with tiles := s.board.tiles.map (fun t => { t with type := .normal }) } }
  | .resetGame => createInitialState

/-- States reachable from the initial state by any sequence of actions
(the lifecycle of Game.ts: construct, then `dispatch` repeatedly). -/
inductive Reachable : GameState → Prop where
  | init : Reachable createInitialState
  | step {s : GameState} (a : Action) : Reachable s → Reachable (applyAction s a)

/-- Modelled from the spec: the "plain structured-text encoding (e.g.,
JSON)" that `serializeState`/`deserializeState` delegate to via the
platform functions `JSON.stringify`/`JSON.parse` (which are not part of
this repository).  A JSON tree over integer numerals — every number a
reachable `GameState` contains is integral. -/
inductive Json where
  | null
  | bool (b : Bool)
  | num (n : Int)
  | str (s : String)
  | arr (elems : List Json)
  | obj (fields : List (String × Json))

/-- Decimal digit character for `n < 10`. -/
def digitChar (n : Nat) : Char := Char.ofNat (48 + n)

/-- Decimal digits of a natural number, most significant first. -/
def natChars (n : Nat) : List Char :=
  if n < 10 then [digitChar n]
  else natChars (n / 10) ++ [digitChar (n % 10)]
decreasing_by exact Nat.div_lt_self (by omega) (by omega)

/-- Decimal numeral of an integer, as `JSON.stringify` prints it. -/
def intChars (n : Int) : List Char :=
  if n < 0 then '-' :: natChars n.natAbs else natChars n.toNat

/-- String-literal body character: `JSON.stringify` escapes a quote or a
backslash with a backslash (the strings the game produces contain no
control characters, so no other escape is ever emitted). -/
def escapeChar (c : Char) : List Char :=
  if c = '"' || c = '\\' then ['\\', c] else [c]

/-- A JSON string literal, quotes included. -/
def stringChars (s : String) : List Char :=
  '"' :: (s.toList.map escapeChar).flatten ++ ['"']

mutual

/-- Modelled from the spec: the text `JSON.stringify` produces for a JSON
tree (no insignificant whitespace, keys in insertion order). -/
def printJson : Json → List Char
  | .null => "null".toList
  | .bool true => "true".toList
  | .bool false => "false".toList
  | .num n => intChars n
  | .str s => stringChars s
  | .arr elems => '[' :: printElems elems ++ [']']
  | .obj fields => '\x7b' :: printFields fields ++ ['\x7d']

/-- Comma-separated array elements. -/
def printElems : List Json → List Char
  | [] => []
  | [x] => printJson x
  | x :: xs => printJson x ++ ',' :: printElems xs

/-- Comma-separated `"key":value` object fields. -/
def printFields : List (String × Json) → List Char
  | [] => []
  | [(k, v)] => stringChars k ++ ':' :: printJson v
  | (k, v) :: fs => stringChars k ++ ':' :: printJson v ++ ',' :: printFields fs

end

/-- Decimal digit test. -/
def isDigit (c : Char) : Bool := 48 ≤ c.toNat && c.toNat ≤ 57

/-- Value of a digit string (most significant first). -/
def digitsToNat (ds : List Char) : Nat :=
  ds.foldl (fun acc c => 10 * acc + (c.toNat - 48)) 0

/-- Parse a nonempty maximal run of digits. -/
def parseNat (cs : List Char) : Option (Nat × List Char) :=
  let ds := cs.takeWhile isDigit
  if ds.isEmpty then none else some (digitsToNat ds, cs.dropWhile isDigit)

/-- Parse an optionally `-`-signed decimal integer. -/
def parseInt (cs : List Char) : Option (Int × List Char) :=
  match cs with
  | '-' :: rest => (parseNat rest).map (fun r => (-(r.1 : Int), r.2))
  | _ => (parseNat cs).map (fun r => ((r.1 : Int), r.2))

/-- Parse a string-literal body up to and including the closing quote,
undoing the backslash escapes. -/
def parseStringBody : List Char → Option (List Char × List Char)
  | [] => none
  | c :: rest =>
    if c = '\\' then
      match rest with
      | [] => none
      | e :: rest2 => (parseStringBody rest2).map (fun r => (e :: r.1, r.2))
    else if c = '"' then some ([], rest)
    else (parseStringBody rest).map (fun r => (c :: r.1, r.2))

mutual

/-- Modelled from the spec: `JSON.parse` on the whitespace-free fragment
`JSON.stringify` emits.  Fuel bounds the nesting recursion; the top-level
wrapper supplies fuel exceeding the size of any parseable input. -/
def parseVal : Nat → List Char → Option (Json × List Char)
  | 0, _ => none
  | _ + 1, [] => none
  | fuel + 1, c :: rest =>
    if c = 'n' then
      match rest with
      | 'u' :: 'l' :: 'l' :: r => some (.null, r)
      | _ => none
    else if c = 't' then
      match rest with
      | 'r' :: 'u' :: 'e' :: r => some (.bool true, r)
      | _ => none
    else if c = 'f' then
      match rest with
      | 'a' :: 'l' :: 's' :: 'e' :: r => some (.bool false, r)
      | _ => none
    else if c = '"' then
      (parseStringBody rest).map (fun r => (.str (String.mk r.1), r.2))
    else if c = '[' then
      match rest with
      | r0 :: r1 =>
        if r0 = ']' then some (.arr [], r1)
        else (parseElems fuel (r0 :: r1)).map (fun r => (.arr r.1, r.2))
      | [] => (parseElems fuel []).map (fun r => (.arr r.1, r.2))
    else if c = '\x7b' then
      match rest with
      | r0 :: r1 =>
        if r0 = '\x7d' then some (.obj [], r1)
        else (parseFields fuel (r0 :: r1)).map (fun r => (.obj r.1, r.2))
      | [] => (parseFields fuel []).map (fun r => (.obj r.1, r.2))
    else
      (parseInt (c :: rest)).map (fun r => (.num r.1, r.2))

/-- Parse one or more comma-separated values followed by `]`. -/
def parseElems : Nat → List Char → Option (List Json × List Char)
  | 0, _ => none
  | fuel + 1, cs =>
    match parseVal fuel cs with
    | none => none
    | some (x, rest) =>
      match rest with
      | ',' :: rest2 => (parseElems fuel rest2).map (fun r => (x :: r.1, r.2))
      | ']' :: rest2 => some ([x], rest2)
      | _ => none

/-- Parse one or more comma-separated `"key":value` pairs followed by
a closing brace. -/
def parseFields : Nat → List Char → Option (List (String × Json) × List Char)
  | 0, _ => none
  | fuel + 1, cs =>
    match cs with
    | '"' :: rest =>
      match parseStringBody rest with
      | none => none
      | some (k, rest2) =>
        match rest2 with
        | ':' :: rest3 =>
          match parseVal fuel rest3 with
          | none => none
          | some (v, rest4) =>
            match rest4 with
            | ',' :: rest5 => (parseFields fuel rest5).map (fun r => ((String.mk k, v) :: r.1, r.2))
            | '\x7d' :: rest5 => some ([(String.mk k, v)], rest5)
            | _ => none
        | _ => none
    | _ => none

end

/-- JSON image of a `Position` (runtime object `\x7b x, y \x7d`). -/
def posToJson (p : Position) : Json :=
  .obj [("x", .num p.x), ("y", .num p.y)]

/-- The string tag of a piece type, as in the TS union. -/
def pieceTypeStr : PieceType → String
  | .pawn => "pawn"
  | .rook => "rook"
  | .knight => "knight"
  | .bishop => "bishop"
  | .queen => "queen"
  | .king => "king"

/-- The string tag of a tile display state, as in the TS union. -/
def tileTypeStr : TileType → String
  | .normal => "normal"
  | .highlighted => "highlighted"
  | .validMove => "valid-move"

/-- JSON image of a `Piece`, with fields in declaration order. -/
def pieceToJson (p : Piece) : Json :=
  .obj [("id", .str p.id), ("position", posToJson p.position),
        ("playerId", .num p.playerId), ("type", .str (pieceTypeStr p.type)),
        ("hasMoved", .bool p.hasMoved)]

/-- JSON image of a `Tile`, with fields in declaration order. -/
def tileToJson (t : Tile) : Json :=
  .obj [("id", .str t.id), ("position", posToJson t.position),
        ("type", .str (tileTypeStr t.type))]

/-- The JSON tree that a `GameState` is at runtime: `GameState` is plain
data, so this is exactly the structure `JSON.stringify` serializes and
what a deep-equality comparison of two states inspects. -/
def toJson (s : GameState) : Json :=
  .obj [("board", .obj [("width", .num s.board.width), ("height", .num s.board.height),
                        ("tiles", .arr (s.board.tiles.map tileToJson))]),
        ("pieces", .arr (s.pieces.map pieceToJson)),
        ("currentPlayer", .num s.currentPlayer),
        ("selectedPieceId", match s.selectedPieceId with
            | none => Json.null
            | some id => Json.str id),
        ("validMoves", .arr (s.validMoves.map posToJson)),
        ("turnNumber", .num s.turnNumber),
        ("capturedPieces", .arr (s.capturedPieces.map pieceToJson))]

/-- GameState.ts `serializeState`: `JSON.stringify(state)`. -/
def serializeState (s : GameState) : String :=
  String.mk (printJson (toJson s))

/-- GameState.ts `deserializeState`: `JSON.parse(json) as GameState`.
`none` models the `SyntaxError` thrown on malformed text.  The TS
`as GameState` cast performs no runtime check whatsoever, so a successful
parse returns the parsed tree unvalidated. -/
def deserializeState (json : String) : Option Json :=
  match parseVal (json.length + 1) json.toList with
  | some (j, []) => some j
  | _ => none

/-- Field lookup in a parsed JSON object. -/
def jsonLookup (fields : List (String × Json)) (key : String) : Option Json :=
  (fields.find? (fun f => f.1 == key)).map (fun f => f.2)

/-- Shape test for `Position` values (GameState.ts type `Position`). -/
def isPositionShape : Json → Bool
  | .obj fields =>
    fields.length == 2 &&
    (jsonLookup fields "x").any (fun j => match j with | .num _ => true | _ => false) &&
    (jsonLookup fields "y").any (fun j => match j with | .num _ => true | _ => false)
  | _ => false

/-- Shape test for `Piece` values (GameState.ts type `Piece`). -/
def isPieceShape : Json → Bool
  | .obj fields =>
    fields.length == 5 &&
    (jsonLookup fields "id").any (fun j => match j with | .str _ => true | _ => false) &&
    (jsonLookup fields "position").any isPositionShape &&
    (jsonLookup fields "playerId").any (fun j => match j with | .num _ => true | _ => false) &&
    (jsonLookup fields "type").any (fun j => match j with
        | .str t => ["pawn", "rook", "knight", "bishop", "queen", "king"].contains t
        | _ => false) &&
    (jsonLookup fields "hasMoved").any (fun j => match j with | .bool _ => true | _ => false)
  | _ => false

/-- Shape test for `Tile` values (GameState.ts type `Tile`). -/
def isTileShape : Json → Bool
  | .obj fields =>
    fields.length == 3 &&
    (jsonLookup fields "id").any (fun j => match j with | .str _ => true | _ => false) &&
    (jsonLookup fields "position").any isPositionShape &&
    (jsonLookup fields "type").any (fun j => match j with
        | .str t => ["normal", "highlighted", "valid-move"].contains t
        | _ => false)
  | _ => false

/-- Shape test for the whole `GameState` type of GameState.ts: what a
faithful runtime validator of the declared TS shape would check. -/
def isGameStateShape : Json → Bool
  | .obj fields =>
    fields.length == 7 &&
    (jsonLookup fields "board").any (fun j => match j with
        | .obj bf =>
          bf.length == 3 &&
          (jsonLookup bf "width").any (fun w => match w with | .num _ => true | _ => false) &&
          (jsonLookup bf "height").any (fun h => match h with | .num _ => true | _ => false) &&
          (jsonLookup bf "tiles").any (fun t => match t with
              | .arr ts => ts.all isTileShape
              | _ => false)
        | _ => false) &&
    (jsonLookup fields "pieces").any (fun j => match j with
        | .arr ps => ps.all isPieceShape
        | _ => false) &&
    (jsonLookup fields "currentPlayer").any (fun j => match j with | .num _ => true | _ => false) &&
    (jsonLookup fields "selectedPieceId").any (fun j => match j with
        | .null => true
        | .str _ => true
        | _ => false) &&
    (jsonLookup fields "validMoves").any (fun j => match j with
        | .arr ms => ms.all isPositionShape
        | _ => false) &&
    (jsonLookup fields "turnNumber").any (fun j => match j with | .num _ => true | _ => false) &&
    (jsonLookup fields "capturedPieces").any (fun j => match j with
        | .arr ps => ps.all isPieceShape
        | _ => false)
  | _ => false

/-! ### Lemmas about `findIndex` and position lookup -/

theorem findIndex_eq_none {α : Type _} {p : α → Bool} {l : List α} :
    findIndex p l = none ↔ ∀ a ∈ l, p a = false := by
  induction l with
  | nil => simp [findIndex]
  | cons a l ih =>
    cases hp : p a with
    | true => simp [findIndex, hp]
    | false => simp [findIndex, hp, ih]

theorem findIndex_getElem? {α : Type _} {p : α → Bool} {l : List α} {i : Nat}
    (h : findIndex p l = some i) : ∃ a, l[i]? = some a ∧ p a = true := by
  induction l generalizing i with
  | nil => simp [findIndex] at h
  | cons a l ih =>
    cases hp : p a with
    | true =>
      rw [findIndex, if_pos hp] at h
      cases h
      exact ⟨a, by simp, hp⟩
    | false =>
      rw [findIndex, if_neg (by simp [hp])] at h
      rw [Option.map_eq_some'] at h
      obtain ⟨j, hj, rfl⟩ := h
      obtain ⟨b, hb, hpb⟩ := ih hj
      exact ⟨b, by simpa using hb, hpb⟩

theorem findIndex_lt_length {α : Type _} {p : α → Bool} {l : List α} {i : Nat}
    (h : findIndex p l = some i) : i < l.length := by
  obtain ⟨a, ha, -⟩ := findIndex_getElem? h
  exact (List.getElem?_eq_some.mp ha).1

theorem findIndex_first {α : Type _} {p : α → Bool} {l : List α} {i : Nat}
    (h : findIndex p l = some i) : ∀ j, j < i → ∃ a, l[j]? = some a ∧ p a = false := by
  induction l generalizing i with
  | nil => simp [findIndex] at h
  | cons a l ih =>
    cases hp : p a with
    | true =>
      rw [findIndex, if_pos hp] at h
      cases h
      intro j hj
      omega
    | false =>
      rw [findIndex, if_neg (by simp [hp])] at h
      rw [Option.map_eq_some'] at h
      obtain ⟨i', hi', rfl⟩ := h
      rintro (_ | j) hj
      · exact ⟨a, by simp, hp⟩
      · obtain ⟨b, hb, hpb⟩ := ih hi' j (by omega)
        exact ⟨b, by simpa using hb, hpb⟩

theorem find?_eq_of_findIndex {α : Type _} {p : α → Bool} {l : List α} {i : Nat}
    (h : findIndex p l = some i) : l.find? p = l[i]? := by
  induction l generalizing i with
  | nil => simp [findIndex] at h
  | cons a l ih =>
    cases hp : p a with
    | true =>
      rw [findIndex, if_pos hp] at h
      cases h
      simp [List.find?_cons, hp]
    | false =>
      rw [findIndex, if_neg (by simp [hp])] at h
      rw [Option.map_eq_some'] at h
      obtain ⟨i', hi', rfl⟩ := h
      simpa [List.find?_cons, hp] using ih hi'

theorem beq_position_iff {a b : Position} :
    (a.x == b.x && a.y == b.y) = true ↔ a = b := by
  cases a; cases b
  simp [Position.mk.injEq]

theorem getPieceAt_eq_none {pos : Position} {s : GameState} :
    getPieceAt pos s = none ↔ ∀ q ∈ s.pieces, q.position ≠ pos := by
  simp only [getPieceAt, List.find?_eq_none]
  constructor
  · intro h q hq hpos
    exact h q hq (beq_position_iff.mpr hpos)
  · intro h q hq hbeq
    exact h q hq (beq_position_iff.mp hbeq)

theorem getPieceAt_mem {pos : Position} {s : GameState} {q : Piece}
    (h : getPieceAt pos s = some q) : q ∈ s.pieces ∧ q.position = pos := by
  rw [getPieceAt] at h
  have hb := List.find?_some h
  exact ⟨List.mem_of_find?_eq_some h, beq_position_iff.mp hb⟩

/-- The spec's data-model invariant (§3): at most one piece occupies any
given position, stated as pairwise distinctness of the active pieces'
positions (executably, so a witness can evaluate it). -/
def distinctPos : List Piece → Bool
  | [] => true
  | p :: l =>
    l.all (fun q => !(q.position.x == p.position.x && q.position.y == p.position.y)) &&
      distinctPos l

/-- The invariant "at most one piece occupies any given position". -/
def uniquePositions (s : GameState) : Prop := distinctPos s.pieces = true

theorem distinctPos_iff_pairwise {l : List Piece} :
    distinctPos l = true ↔ l.Pairwise (fun p q => p.position ≠ q.position) := by
  induction l with
  | nil => simp [distinctPos]
  | cons p l ih =>
    simp only [distinctPos, Bool.and_eq_true, List.all_eq_true, List.pairwise_cons, ih,
      Bool.not_eq_true']
    constructor
    · rintro ⟨hall, hl⟩
      refine ⟨fun q hq hpq => ?_, hl⟩
      have := hall q hq
      rw [Bool.eq_false_iff] at this
      exact this (beq_position_iff.mpr hpq.symm)
    · rintro ⟨hall, hl⟩
      refine ⟨fun q hq => ?_, hl⟩
      rw [Bool.eq_false_iff]
      intro hbeq
      exact hall q hq (beq_position_iff.mp hbeq).symm

theorem pairwise_position_eq {l : List Piece}
    (hpw : l.Pairwise (fun p q => p.position ≠ q.position)) {q r : Piece}
    (hq : q ∈ l) (hr : r ∈ l) (hpos : q.position = r.position) : q = r := by
  induction l with
  | nil => cases hq
  | cons a l ih =>
    rcases List.pairwise_cons.mp hpw with ⟨ha, hl⟩
    cases hq with
    | head =>
      cases hr with
      | head => rfl
      | tail _ hr => exact absurd hpos (ha r hr)
    | tail _ hq =>
      cases hr with
      | head => exact absurd hpos.symm (ha q hq)
      | tail _ hr => exact ih hl hq hr

theorem uniquePositions_eq_of_pos {s : GameState} (h : uniquePositions s) {q r : Piece}
    (hq : q ∈ s.pieces) (hr : r ∈ s.pieces) (hpos : q.position = r.position) : q = r :=
  pairwise_position_eq (distinctPos_iff_pairwise.mp h) hq hr hpos

theorem getPieceAt_of_mem_unique {s : GameState} {pos : Position} {q : Piece}
    (hu : uniquePositions s) (hq : q ∈ s.pieces) (hpos : q.position = pos) :
    getPieceAt pos s = some q := by
  cases hga : getPieceAt pos s with
  | none => exact absurd hpos (getPieceAt_eq_none.mp hga q hq)
  | some r =>
    obtain ⟨hrmem, hrpos⟩ := getPieceAt_mem hga
    rw [uniquePositions_eq_of_pos hu hrmem hq (hrpos.trans hpos.symm)]

/-! ### Characterization of the sliding scan -/

/-- The candidate square the sliding loop inspects at step `k`. -/
def shiftPos (piece : Piece) (dx dy : Int) (k : Nat) : Position :=
  ⟨piece.position.x + dx * (k : Int), piece.position.y + dy * (k : Int)⟩

theorem mem_slideAux {piece : Piece} {s : GameState} {dx dy : Int} :
    ∀ {fuel dist : Nat} {pos : Position},
      pos ∈ slideAux piece s dx dy fuel dist ↔
      ∃ k : Nat, dist ≤ k ∧ k < dist + fuel ∧ pos = shiftPos piece dx dy k ∧
        (∀ j : Nat, dist ≤ j → j < k → isValidPosition (shiftPos piece dx dy j) s = true ∧
            getPieceAt (shiftPos piece dx dy j) s = none) ∧
        isValidPosition (shiftPos piece dx dy k) s = true ∧
        (getPieceAt (shiftPos piece dx dy k) s = none ∨
          ∃ q, getPieceAt (shiftPos piece dx dy k) s = some q ∧ q.playerId ≠ piece.playerId) := by
  intro fuel
  induction fuel with
  | zero =>
    intro dist pos
    simp only [slideAux, List.not_mem_nil, false_iff, not_exists]
    rintro k ⟨h1, h2, -⟩
    omega
  | succ fuel ih =>
    intro dist pos
    have hcand : (⟨piece.position.x + dx * (dist : Int), piece.position.y + dy * (dist : Int)⟩ : Position) =
        shiftPos piece dx dy dist := rfl
    rw [slideAux]
    cases hv : isValidPosition (shiftPos piece dx dy dist) s with
    | false =>
      rw [if_neg (by rw [hcand, hv]; exact Bool.false_ne_true)]
      simp only [List.not_mem_nil, false_iff, not_exists]
      rintro k ⟨h1, h2, h3, hint, hkv, hocc⟩
      rcases Nat.eq_or_lt_of_le h1 with rfl | hlt
      · exact absurd hkv (by rw [hv]; exact Bool.false_ne_true)
      · exact absurd (hint dist le_rfl hlt).1 (by rw [hv]; exact Bool.false_ne_true)
    | true =>
      rw [if_pos (by rw [hcand, hv])]
      rw [hcand]
      cases hg : getPieceAt (shiftPos piece dx dy dist) s with
      | none =>
        simp only [List.mem_cons]
        constructor
        · rintro (rfl | hrec)
          · exact ⟨dist, le_rfl, by omega, rfl, fun j h1 h2 => absurd (lt_of_le_of_lt h1 h2)
              (lt_irrefl _), hv, Or.inl hg⟩
          · obtain ⟨k, h1, h2, h3, hint, hkv, hocc⟩ := ih.mp hrec
            refine ⟨k, by omega, by omega, h3, fun j hj1 hj2 => ?_, hkv, hocc⟩
            rcases Nat.eq_or_lt_of_le hj1 with rfl | hj1'
            · exact ⟨hv, hg⟩
            · exact hint j hj1' hj2
        · rintro ⟨k, h1, h2, h3, hint, hkv, hocc⟩
          rcases Nat.eq_or_lt_of_le h1 with rfl | hlt
          · exact Or.inl h3
          · refine Or.inr (ih.mpr ⟨k, hlt, by omega, h3, fun j hj1 hj2 => hint j (by omega) hj2,
              hkv, hocc⟩)
      | some q =>
        change (pos ∈ if (q.playerId != piece.playerId) = true
            then [shiftPos piece dx dy dist] else []) ↔ _
        cases hpq : (q.playerId != piece.playerId) with
        | true =>
          rw [if_pos rfl]
          simp only [List.mem_singleton]
          constructor
          · rintro rfl
            exact ⟨dist, le_rfl, by omega, rfl, fun j h1 h2 => absurd (lt_of_le_of_lt h1 h2)
              (lt_irrefl _), hv, Or.inr ⟨q, hg, bne_iff_ne.mp hpq⟩⟩
          · rintro ⟨k, h1, h2, h3, hint, hkv, hocc⟩
            rcases Nat.eq_or_lt_of_le h1 with rfl | hlt
            · exact h3
            · exact absurd (hint dist le_rfl hlt).2 (by rw [hg]; exact fun hc => Option.noConfusion hc)
        | false =>
          rw [if_neg Bool.false_ne_true]
          simp only [List.not_mem_nil, false_iff, not_exists]
          rintro k ⟨h1, h2, h3, hint, hkv, hocc⟩
          rcases Nat.eq_or_lt_of_le h1 with rfl | hlt
          · rcases hocc with hnone | ⟨q', hq', hne⟩
            · rw [hg] at hnone; exact Option.noConfusion hnone
            · rw [hg] at hq'
              cases hq'
              exact hne (by simpa using hpq)
          · exact absurd (hint dist le_rfl hlt).2 (by rw [hg]; exact fun hc => Option.noConfusion hc)

theorem isEmpty_iff {pos : Position} {s : GameState} :
    isEmpty pos s = true ↔ getPieceAt pos s = none := by
  rw [isEmpty, Option.isNone_iff_eq_none]

theorem isEnemyAt_iff {pos : Position} {pid : Int} {s : GameState} :
    isEnemyAt pos pid s = true ↔ ∃ q, getPieceAt pos s = some q ∧ q.playerId ≠ pid := by
  rw [isEnemyAt]
  cases hg : getPieceAt pos s with
  | none => simp
  | some q => simp [bne_iff_ne]

theorem mem_if_singleton {α : Type _} {c : Bool} {a pos : α} :
    (pos ∈ if c = true then [a] else []) ↔ pos = a ∧ c = true := by
  cases c <;> simp

theorem band_true_iff {a b : Bool} : (a && b) = true ↔ a = true ∧ b = true := by
  cases a <;> cases b <;> simp

/-- Membership in the pawn move list, read off the four push sites of
`getPawnMoves`. -/
theorem mem_getPawnMoves {piece : Piece} {s : GameState} {pos : Position} :
    pos ∈ getPawnMoves piece s ↔
      ((pos = ⟨piece.position.x, piece.position.y + pawnDirection piece⟩ ∧
          isValidPosition ⟨piece.position.x, piece.position.y + pawnDirection piece⟩ s = true ∧
          isEmpty ⟨piece.position.x, piece.position.y + pawnDirection piece⟩ s = true) ∨
        (pos = ⟨piece.position.x, piece.position.y + 2 * pawnDirection piece⟩ ∧
          isValidPosition ⟨piece.position.x, piece.position.y + pawnDirection piece⟩ s = true ∧
          isEmpty ⟨piece.position.x, piece.position.y + pawnDirection piece⟩ s = true ∧
          piece.hasMoved = false ∧
          isValidPosition ⟨piece.position.x, piece.position.y + 2 * pawnDirection piece⟩ s = true ∧
          isEmpty ⟨piece.position.x, piece.position.y + 2 * pawnDirection piece⟩ s = true) ∨
        (pos = ⟨piece.position.x - 1, piece.position.y + pawnDirection piece⟩ ∧
          isValidPosition ⟨piece.position.x - 1, piece.position.y + pawnDirection piece⟩ s = true ∧
          isEnemyAt ⟨piece.position.x - 1, piece.position.y + pawnDirection piece⟩
            piece.playerId s = true) ∨
        (pos = ⟨piece.position.x + 1, piece.position.y + pawnDirection piece⟩ ∧
          isValidPosition ⟨piece.position.x + 1, piece.position.y + pawnDirection piece⟩ s = true ∧
          isEnemyAt ⟨piece.position.x + 1, piece.position.y + pawnDirection piece⟩
            piece.playerId s = true)) := by
  rw [getPawnMoves]
  simp only [List.mem_append]
  constructor
  · rintro ((h | h) | h)
    · split at h
      · next hc =>
        rcases band_true_iff.mp hc with ⟨hv, he⟩
        rcases List.mem_cons.mp h with rfl | h2
        · exact Or.inl ⟨rfl, hv, he⟩
        · split at h2
          · next hm =>
            rcases mem_if_singleton.mp h2 with ⟨rfl, hc2⟩
            rcases band_true_iff.mp hc2 with ⟨hv2, he2⟩
            exact Or.inr (Or.inl ⟨rfl, hv, he, by simpa using hm, hv2, he2⟩)
          · cases h2
      · cases h
    · rcases mem_if_singleton.mp h with ⟨rfl, hc⟩
      rcases band_true_iff.mp hc with ⟨hv, he⟩
      exact Or.inr (Or.inr (Or.inl ⟨rfl, hv, he⟩))
    · rcases mem_if_singleton.mp h with ⟨rfl, hc⟩
      rcases band_true_iff.mp hc with ⟨hv, he⟩
      exact Or.inr (Or.inr (Or.inr ⟨rfl, hv, he⟩))
  · rintro (⟨rfl, hv, he⟩ | ⟨rfl, hv, he, hm, hv2, he2⟩ | ⟨rfl, hv, he⟩ | ⟨rfl, hv, he⟩)
    · exact Or.inl (Or.inl (by rw [if_pos (band_true_iff.mpr ⟨hv, he⟩)]; exact List.mem_cons_self _ _))
    · refine Or.inl (Or.inl ?_)
      rw [if_pos (band_true_iff.mpr ⟨hv, he⟩)]
      refine List.mem_cons_of_mem _ ?_
      rw [if_pos (by simp [hm]), if_pos (band_true_iff.mpr ⟨hv2, he2⟩)]
      exact List.mem_singleton.mpr rfl
    · exact Or.inl (Or.inr (mem_if_singleton.mpr ⟨rfl, band_true_iff.mpr ⟨hv, he⟩⟩))
    · exact Or.inr (mem_if_singleton.mpr ⟨rfl, band_true_iff.mpr ⟨hv, he⟩⟩)

theorem offsetCandidate_some {piece : Piece} {s : GameState} {cand pos : Position} :
    ((if isValidPosition cand s = true then
        match getPieceAt cand s with
        | none => some cand
        | some target => if (target.playerId != piece.playerId) = true then some cand else none
      else none) = some pos) ↔
      (pos = cand ∧ isValidPosition cand s = true ∧
        (getPieceAt cand s = none ∨
          ∃ q, getPieceAt cand s = some q ∧ q.playerId ≠ piece.playerId)) := by
  cases hv : isValidPosition cand s with
  | false =>
    constructor
    · intro h
      exact Option.noConfusion (show (none : Option Position) = some pos from h)
    · rintro ⟨-, hv', -⟩
      exact absurd hv' Bool.false_ne_true
  | true =>
    cases hg : getPieceAt cand s with
    | none =>
      constructor
      · intro h
        injection (show some cand = some pos from h) with h''
        subst h''
        exact ⟨rfl, rfl, Or.inl rfl⟩
      · rintro ⟨rfl, -, -⟩
        rfl
    | some q =>
      change ((if (q.playerId != piece.playerId) = true then some cand else none) = some pos) ↔ _
      cases hpq : (q.playerId != piece.playerId) with
      | true =>
        rw [if_pos rfl]
        constructor
        · intro h
          injection h with h''
          subst h''
          exact ⟨rfl, rfl, Or.inr ⟨q, rfl, bne_iff_ne.mp hpq⟩⟩
        · rintro ⟨rfl, -, -⟩
          rfl
      | false =>
        rw [if_neg Bool.false_ne_true]
        have heq : q.playerId = piece.playerId := by
          simpa using hpq
        constructor
        · intro h
          exact Option.noConfusion h
        · rintro ⟨rfl, -, hocc⟩
          rcases hocc with hn | ⟨q', hq', hne⟩
          · exact Option.noConfusion hn
          · injection hq' with h''
            exact absurd (h'' ▸ heq) hne

/-- Membership in a knight/king offset scan. -/
theorem mem_offsetMoves {offs : List (Int × Int)} {piece : Piece} {s : GameState}
    {pos : Position} :
    pos ∈ offsetMoves offs piece s ↔
      ∃ o ∈ offs, pos = ⟨piece.position.x + o.1, piece.position.y + o.2⟩ ∧
        isValidPosition pos s = true ∧
        (getPieceAt pos s = none ∨
          ∃ q, getPieceAt pos s = some q ∧ q.playerId ≠ piece.playerId) := by
  rw [offsetMoves, List.mem_filterMap]
  constructor
  · rintro ⟨o, ho, hf⟩
    obtain ⟨rfl, hv, hocc⟩ := offsetCandidate_some.mp hf
    exact ⟨o, ho, rfl, hv, hocc⟩
  · rintro ⟨o, ho, rfl, hv, hocc⟩
    exact ⟨o, ho, offsetCandidate_some.mpr ⟨rfl, hv, hocc⟩⟩

/-- Every move returned for any piece type lands on the board and on a
square that is empty or whose first occupant is enemy-owned. -/
theorem mem_getValidMoves_props {piece : Piece} {s : GameState} {pos : Position}
    (h : pos ∈ getValidMoves piece s) :
    isValidPosition pos s = true ∧
      (getPieceAt pos s = none ∨
        ∃ q, getPieceAt pos s = some q ∧ q.playerId ≠ piece.playerId) := by
  have hslide : ∀ dx dy fuel dist, pos ∈ slideAux piece s dx dy fuel dist →
      isValidPosition pos s = true ∧
        (getPieceAt pos s = none ∨
          ∃ q, getPieceAt pos s = some q ∧ q.playerId ≠ piece.playerId) := by
    intro dx dy fuel dist hmem
    obtain ⟨k, -, -, rfl, -, hv, hocc⟩ := mem_slideAux.mp hmem
    exact ⟨hv, hocc⟩
  have hflat : ∀ (dirs : List (Int × Int)),
      pos ∈ (dirs.map (fun d => slideAux piece s d.1 d.2 (slideFuel s) 1)).flatten →
      isValidPosition pos s = true ∧
        (getPieceAt pos s = none ∨
          ∃ q, getPieceAt pos s = some q ∧ q.playerId ≠ piece.playerId) := by
    intro dirs hmem
    rw [List.mem_flatten] at hmem
    obtain ⟨l, hl, hpos⟩ := hmem
    obtain ⟨d, -, rfl⟩ := List.mem_map.mp hl
    exact hslide d.1 d.2 _ _ hpos
  rw [getValidMoves] at h
  cases htype : piece.type <;> rw [htype] at h
  case pawn =>
    rcases mem_getPawnMoves.mp h with ⟨rfl, hv, he⟩ | ⟨rfl, -, -, -, hv, he⟩ |
      ⟨rfl, hv, he⟩ | ⟨rfl, hv, he⟩
    · exact ⟨hv, Or.inl (isEmpty_iff.mp he)⟩
    · exact ⟨hv, Or.inl (isEmpty_iff.mp he)⟩
    · exact ⟨hv, Or.inr (isEnemyAt_iff.mp he)⟩
    · exact ⟨hv, Or.inr (isEnemyAt_iff.mp he)⟩
  case rook => exact hflat rookDirections h
  case knight =>
    obtain ⟨o, -, -, hv, hocc⟩ := mem_offsetMoves.mp h
    exact ⟨hv, hocc⟩
  case bishop => exact hflat bishopDirections h
  case queen =>
    rcases List.mem_append.mp h with h | h
    · exact hflat rookDirections h
    · exact hflat bishopDirections h
  case king =>
    obtain ⟨o, -, -, hv, hocc⟩ := mem_offsetMoves.mp h
    exact ⟨hv, hocc⟩

theorem pawnDirection_cases (piece : Piece) :
    pawnDirection piece = 1 ∨ pawnDirection piece = -1 := by
  rw [pawnDirection]
  split <;> simp

/-- No piece type ever offers its own square as a destination. -/
theorem mem_getValidMoves_ne {piece : Piece} {s : GameState} {pos : Position}
    (h : pos ∈ getValidMoves piece s) : pos ≠ piece.position := by
  have hslide : ∀ dx dy, ¬(dx = 0 ∧ dy = 0) → ∀ fuel, pos ∈ slideAux piece s dx dy fuel 1 →
      pos ≠ piece.position := by
    intro dx dy hdxy fuel hmem heq
    obtain ⟨k, hk1, -, hpos, -⟩ := mem_slideAux.mp hmem
    rw [heq] at hpos
    have hx : piece.position.x = piece.position.x + dx * (k : Int) :=
      congrArg Position.x hpos
    have hy : piece.position.y = piece.position.y + dy * (k : Int) :=
      congrArg Position.y hpos
    have hkz : (k : Int) ≠ 0 := by
      have : 1 ≤ k := hk1
      omega
    have hdx : dx = 0 := by
      rcases Int.mul_eq_zero.mp (by omega : dx * (k : Int) = 0) with h0 | h0
      · exact h0
      · exact absurd h0 hkz
    have hdy : dy = 0 := by
      rcases Int.mul_eq_zero.mp (by omega : dy * (k : Int) = 0) with h0 | h0
      · exact h0
      · exact absurd h0 hkz
    exact hdxy ⟨hdx, hdy⟩
  have hflat : ∀ (dirs : List (Int × Int)), (∀ d ∈ dirs, ¬(d.1 = 0 ∧ d.2 = 0)) →
      pos ∈ (dirs.map (fun d => slideAux piece s d.1 d.2 (slideFuel s) 1)).flatten →
      pos ≠ piece.position := by
    intro dirs hdirs hmem
    rw [List.mem_flatten] at hmem
    obtain ⟨l, hl, hpos⟩ := hmem
    obtain ⟨d, hd, rfl⟩ := List.mem_map.mp hl
    exact hslide d.1 d.2 (hdirs d hd) _ hpos
  have hrookd : ∀ d ∈ rookDirections, ¬(d.1 = 0 ∧ d.2 = 0) := by decide
  have hbishd : ∀ d ∈ bishopDirections, ¬(d.1 = 0 ∧ d.2 = 0) := by decide
  have hoff : ∀ (offs : List (Int × Int)), (∀ o ∈ offs, ¬(o.1 = 0 ∧ o.2 = 0)) →
      pos ∈ offsetMoves offs piece s → pos ≠ piece.position := by
    intro offs hoffs hmem heq
    obtain ⟨o, ho, hpos, -⟩ := mem_offsetMoves.mp hmem
    rw [heq] at hpos
    have hx : piece.position.x = piece.position.x + o.1 := congrArg Position.x hpos
    have hy : piece.position.y = piece.position.y + o.2 := congrArg Position.y hpos
    exact hoffs o ho ⟨by omega, by omega⟩
  rw [getValidMoves] at h
  cases htype : piece.type <;> rw [htype] at h
  case pawn =>
    have hd := pawnDirection_cases piece
    rcases mem_getPawnMoves.mp h with ⟨rfl, -⟩ | ⟨rfl, -⟩ | ⟨rfl, -⟩ | ⟨rfl, -⟩ <;>
      · intro heq
        have hx := congrArg Position.x heq
        have hy := congrArg Position.y heq
        simp only [] at hx hy
        omega
  case rook => exact hflat rookDirections hrookd h
  case knight =>
    exact hoff knightOffsets (by decide) h
  case bishop => exact hflat bishopDirections hbishd h
  case queen =>
    rcases List.mem_append.mp h with h | h
    · exact hflat rookDirections hrookd h
    · exact hflat bishopDirections hbishd h
  case king =>
    exact hoff kingOffsets (by decide) h

theorem isValidMove_iff {piece : Piece} {dest : Position} {s : GameState} :
    isValidMove piece dest s = true ↔ dest ∈ getValidMoves piece s := by
  simp only [isValidMove, List.any_eq_true]
  constructor
  · rintro ⟨m, hm, hbeq⟩
    rwa [← beq_position_iff.mp hbeq]
  · intro h
    exact ⟨dest, h, beq_position_iff.mpr rfl⟩

/-! ### List surgery lemmas for the capture bookkeeping -/

theorem eraseIdx_adj_getElem? {α : Type _} {l : List α} {i k : Nat}
    (hik : k ≠ i) (hi : i < l.length) :
    (l.eraseIdx k)[if k < i then i - 1 else i]? = l[i]? := by
  rw [List.getElem?_eraseIdx]
  by_cases h1 : k < i
  · rw [if_pos h1, if_neg (by omega)]
    congr 1
    omega
  · rw [if_neg h1, if_pos (by omega)]

theorem eraseIdx_set_comm {α : Type _} {l : List α} {i k : Nat} {a : α}
    (hik : k ≠ i) (hi : i < l.length) (hk : k < l.length) :
    (l.eraseIdx k).set (if k < i then i - 1 else i) a = (l.set i a).eraseIdx k := by
  apply List.ext_getElem?
  intro n
  have hlen : (l.eraseIdx k).length = l.length - 1 := by
    rw [List.length_eraseIdx, if_pos hk]
  rw [List.getElem?_set, List.getElem?_eraseIdx, List.getElem?_eraseIdx, List.getElem?_set,
    List.getElem?_set, hlen]
  by_cases h1 : k < i
  · rw [if_pos h1]
    split_ifs <;> first | rfl | omega | (congr 1; omega)
  · rw [if_neg h1]
    split_ifs <;> first | rfl | omega | (congr 1; omega)

theorem eraseIdx_append_perm {α : Type _} {l : List α} {k : Nat} {x : α}
    (hx : l[k]? = some x) : (l.eraseIdx k ++ [x]).Perm l := by
  induction l generalizing k with
  | nil => simp at hx
  | cons a l ih =>
    cases k with
    | zero =>
      simp only [List.getElem?_cons_zero, Option.some.injEq] at hx
      subst hx
      simpa [List.eraseIdx] using List.perm_append_singleton a l
    | succ k =>
      simp only [List.getElem?_cons_succ] at hx
      simp only [List.eraseIdx]
      exact ((ih hx).cons a)

/-! ### The MOVE_PIECE paths of the reducer -/

theorem move_unknown_id {s : GameState} {pid : String} {dest : Position}
    (h : findIndex (fun p => p.id == pid) s.pieces = none) :
    applyAction s (.movePiece pid dest) = s := by
  simp [applyAction, h]

theorem move_get_none {s : GameState} {pid : String} {dest : Position} {i : Nat}
    (hf : findIndex (fun p => p.id == pid) s.pieces = some i)
    (hg : s.pieces[i]? = none) :
    applyAction s (.movePiece pid dest) = s := by
  simp [applyAction, hf, hg]

theorem move_wrong_owner {s : GameState} {pid : String} {dest : Position} {i : Nat}
    {piece : Piece}
    (hf : findIndex (fun p => p.id == pid) s.pieces = some i)
    (hg : s.pieces[i]? = some piece)
    (how : (piece.playerId != s.currentPlayer) = true) :
    applyAction s (.movePiece pid dest) = s := by
  simp [applyAction, hf, hg, how]

theorem move_invalid {s : GameState} {pid : String} {dest : Position} {i : Nat}
    {piece : Piece}
    (hf : findIndex (fun p => p.id == pid) s.pieces = some i)
    (hg : s.pieces[i]? = some piece)
    (how : (piece.playerId != s.currentPlayer) = false)
    (hv : isValidMove piece dest s = false) :
    applyAction s (.movePiece pid dest) = s := by
  simp [applyAction, hf, hg, how, hv]

/-- A MOVE_PIECE whose result differs from the input passed all three
guards: the id resolved, the mover is the current player's, the
destination is in the legal-move set. -/
theorem move_accepted {s : GameState} {pid : String} {dest : Position}
    (h : applyAction s (.movePiece pid dest) ≠ s) :
    ∃ i piece, findIndex (fun p => p.id == pid) s.pieces = some i ∧
      s.pieces[i]? = some piece ∧ piece.playerId = s.currentPlayer ∧
      isValidMove piece dest s = true := by
  cases hf : findIndex (fun p => p.id == pid) s.pieces with
  | none => exact absurd (move_unknown_id hf) h
  | some i =>
    cases hg : s.pieces[i]? with
    | none => exact absurd (move_get_none hf hg) h
    | some piece =>
      cases how : (piece.playerId != s.currentPlayer) with
      | true => exact absurd (move_wrong_owner hf hg how) h
      | false =>
        cases hv : isValidMove piece dest s with
        | false => exact absurd (move_invalid hf hg how hv) h
        | true =>
          exact ⟨i, piece, rfl, hg, by simpa using how, hv⟩

/-- The accepted non-capturing MOVE_PIECE: destination unoccupied, the
mover is updated in place. -/
theorem move_result_no_capture {s : GameState} {pid : String} {dest : Position} {i : Nat}
    {piece : Piece}
    (hf : findIndex (fun p => p.id == pid) s.pieces = some i)
    (hg : s.pieces[i]? = some piece)
    (how : (piece.playerId != s.currentPlayer) = false)
    (hv : isValidMove piece dest s = true)
    (hcap : findIndex (fun p => p.position.x == dest.x && p.position.y == dest.y)
      s.pieces = none) :
    applyAction s (.movePiece pid dest) =
      { s with
        pieces := s.pieces.set i { piece with position := dest, hasMoved := true },
        capturedPieces := s.capturedPieces,
        currentPlayer := if s.currentPlayer == 1 then 2 else 1,
        selectedPieceId := none,
        validMoves := [],
        turnNumber := if s.currentPlayer == 2 then s.turnNumber + 1 else s.turnNumber,
        board := { s.board with
          tiles := s.board.tiles.map (fun t => { t with type := TileType.normal }) } } := by
  simp [applyAction, hf, hg, how, hv, hcap]

/-- The accepted capturing MOVE_PIECE: the first piece at the destination
is appended to `capturedPieces` and removed, and the mover — re-resolved
at its post-removal index — is updated. -/
theorem move_result_capture {s : GameState} {pid : String} {dest : Position} {i k : Nat}
    {piece q m : Piece}
    (hf : findIndex (fun p => p.id == pid) s.pieces = some i)
    (hg : s.pieces[i]? = some piece)
    (how : (piece.playerId != s.currentPlayer) = false)
    (hv : isValidMove piece dest s = true)
    (hcap : findIndex (fun p => p.position.x == dest.x && p.position.y == dest.y)
      s.pieces = some k)
    (hq : s.pieces[k]? = some q)
    (hm : (s.pieces.eraseIdx k)[if k < i then i - 1 else i]? = some m) :
    applyAction s (.movePiece pid dest) =
      { s with
        pieces := (s.pieces.eraseIdx k).set (if k < i then i - 1 else i)
          { m with position := dest, hasMoved := true },
        capturedPieces := s.capturedPieces ++ [q],
        currentPlayer := if s.currentPlayer == 1 then 2 else 1,
        selectedPieceId := none,
        validMoves := [],
        turnNumber := if s.currentPlayer == 2 then s.turnNumber + 1 else s.turnNumber,
        board := { s.board with
          tiles := s.board.tiles.map (fun t => { t with type := TileType.normal }) } } := by
  simp [applyAction, hf, hg, how, hv, hcap, hq, hm]

/-! ### SELECT_PIECE rejection paths and find bridging -/

theorem select_unknown_id {s : GameState} {pid : String}
    (h : s.pieces.find? (fun p => p.id == pid) = none) :
    applyAction s (.selectPiece pid) = s := by
  simp [applyAction, h]

theorem select_wrong_owner {s : GameState} {pid : String} {piece : Piece}
    (h : s.pieces.find? (fun p => p.id == pid) = some piece)
    (how : (piece.playerId != s.currentPlayer) = true) :
    applyAction s (.selectPiece pid) = s := by
  simp [applyAction, h, how]

theorem findIndex_of_find? {α : Type _} {p : α → Bool} {l : List α} {x : α}
    (h : l.find? p = some x) : ∃ i, findIndex p l = some i ∧ l[i]? = some x := by
  cases hf : findIndex p l with
  | none =>
    have hall := findIndex_eq_none.mp hf
    have hnone : l.find? p = none :=
      List.find?_eq_none.mpr (fun a ha => by rw [hall a ha]; exact Bool.false_ne_true)
    rw [hnone] at h
    exact Option.noConfusion h
  | some i => exact ⟨i, rfl, (find?_eq_of_findIndex hf) ▸ h⟩

/-! ### Fields of an accepted move / end-turn result -/

theorem move_result_fields {s : GameState} {pid : String} {dest : Position}
    (h : applyAction s (.movePiece pid dest) ≠ s) :
    (applyAction s (.movePiece pid dest)).turnNumber =
      (if s.currentPlayer == 2 then s.turnNumber + 1 else s.turnNumber) ∧
    (applyAction s (.movePiece pid dest)).currentPlayer =
      (if s.currentPlayer == 1 then 2 else 1) := by
  obtain ⟨i, piece, hf, hg, how, hv⟩ := move_accepted h
  have hbne : (piece.playerId != s.currentPlayer) = false := by simp [how]
  have hi : i < s.pieces.length := findIndex_lt_length hf
  have hnd : dest ≠ piece.position := mem_getValidMoves_ne (isValidMove_iff.mp hv)
  cases hcap : findIndex (fun p => p.position.x == dest.x && p.position.y == dest.y)
      s.pieces with
  | none =>
    rw [move_result_no_capture hf hg hbne hv hcap]
    exact ⟨rfl, rfl⟩
  | some k =>
    obtain ⟨q, hq, hqp⟩ := findIndex_getElem? hcap
    have hki : k ≠ i := by
      intro he
      subst he
      rw [hg] at hq
      cases hq
      exact hnd (beq_position_iff.mp hqp).symm
    have hm : (s.pieces.eraseIdx k)[if k < i then i - 1 else i]? = some piece := by
      rw [eraseIdx_adj_getElem? hki hi]
      exact hg
    rw [move_result_capture hf hg hbne hv hcap hq hm]
    exact ⟨rfl, rfl⟩

theorem turn_fields {s : GameState} {a : Action}
    (ha : (∃ pid dest, a = .movePiece pid dest) ∨ a = .endTurn)
    (h : applyAction s a ≠ s) :
    (applyAction s a).turnNumber =
      (if s.currentPlayer == 2 then s.turnNumber + 1 else s.turnNumber) ∧
    (applyAction s a).currentPlayer = (if s.currentPlayer == 1 then 2 else 1) := by
  rcases ha with ⟨pid, dest, rfl⟩ | rfl
  · exact move_result_fields h
  · exact ⟨rfl, rfl⟩

/-! ### Preservation of the one-piece-per-square invariant -/

theorem pairwise_of_getElem? {α : Type _} {R : α → α → Prop} {l : List α}
    (h : ∀ (a b : Nat) (x y : α), a < b → l[a]? = some x → l[b]? = some y → R x y) :
    l.Pairwise R := by
  rw [List.pairwise_iff_getElem]
  intro a b ha hb hab
  exact h a b _ _ hab (List.getElem?_eq_getElem ha) (List.getElem?_eq_getElem hb)

theorem unique_getElem?_ne {s : GameState} (hu : uniquePositions s) {m n : Nat}
    {x y : Piece} (hmn : m ≠ n) (hx : s.pieces[m]? = some x) (hy : s.pieces[n]? = some y) :
    x.position ≠ y.position := by
  have hpw := distinctPos_iff_pairwise.mp hu
  rw [List.pairwise_iff_getElem] at hpw
  have hm : m < s.pieces.length := (List.getElem?_eq_some.mp hx).1
  have hn : n < s.pieces.length := (List.getElem?_eq_some.mp hy).1
  have hxe : s.pieces[m] = x := by
    rw [List.getElem?_eq_getElem hm] at hx
    exact Option.some.injEq _ _ ▸ hx.symm ▸ rfl
  have hye : s.pieces[n] = y := by
    rw [List.getElem?_eq_getElem hn] at hy
    exact Option.some.injEq _ _ ▸ hy.symm ▸ rfl
  rcases Nat.lt_or_ge m n with hlt | hge
  · have := hpw m n hm hn hlt
    rwa [hxe, hye] at this
  · have hlt : n < m := by omega
    have := hpw n m hn hm hlt
    rw [hxe, hye] at this
    exact this.symm

theorem applyAction_pieces_select {s : GameState} {pid : String} :
    (applyAction s (.selectPiece pid)).pieces = s.pieces := by
  simp only [applyAction]
  cases s.pieces.find? (fun p => p.id == pid) with
  | none => rfl
  | some piece =>
    change (if (piece.playerId != s.currentPlayer) = true then s else _).pieces = s.pieces
    by_cases how : (piece.playerId != s.currentPlayer) = true
    · rw [if_pos how]
    · rw [if_neg how]

/-- The standard starting position places every piece on its own square. -/
theorem initial_unique : uniquePositions createInitialState := by
  rw [uniquePositions]
  decide

theorem move_preserves_unique {s : GameState} {pid : String} {dest : Position}
    (hu : uniquePositions s) : uniquePositions (applyAction s (.movePiece pid dest)) := by
  by_cases h : applyAction s (.movePiece pid dest) = s
  · rwa [h]
  · obtain ⟨i, piece, hf, hg, how, hv⟩ := move_accepted h
    have hbne : (piece.playerId != s.currentPlayer) = false := by simp [how]
    have hi : i < s.pieces.length := findIndex_lt_length hf
    have hnd : dest ≠ piece.position := mem_getValidMoves_ne (isValidMove_iff.mp hv)
    cases hcap : findIndex (fun p => p.position.x == dest.x && p.position.y == dest.y)
        s.pieces with
    | none =>
      rw [move_result_no_capture hf hg hbne hv hcap]
      have hnone : ∀ p ∈ s.pieces, p.position ≠ dest := by
        intro p hp hpd
        have hfalse := findIndex_eq_none.mp hcap p hp
        rw [beq_position_iff.mpr hpd] at hfalse
        exact Bool.true_eq_false ▸ hfalse ▸ rfl
      rw [uniquePositions, distinctPos_iff_pairwise]
      refine pairwise_of_getElem? ?_
      intro a b x y hab hx hy
      rw [List.getElem?_set] at hx hy
      by_cases hia : i = a
      · rw [if_pos hia, if_pos (hia ▸ hi)] at hx
        cases hx
        rw [if_neg (by omega)] at hy
        intro he
        exact hnone y (List.getElem?_mem hy) he.symm
      · rw [if_neg hia] at hx
        by_cases hib : i = b
        · rw [if_pos hib, if_pos (hib ▸ hi)] at hy
          cases hy
          intro he
          exact hnone x (List.getElem?_mem hx) he
        · rw [if_neg hib] at hy
          exact unique_getElem?_ne hu (by omega) hx hy
    | some k =>
      obtain ⟨q, hq, hqp⟩ := findIndex_getElem? hcap
      have hk : k < s.pieces.length := findIndex_lt_length hcap
      have hqpos : q.position = dest := beq_position_iff.mp hqp
      have hki : k ≠ i := by
        intro he
        subst he
        rw [hg] at hq
        cases hq
        exact hnd hqpos.symm
      have hm : (s.pieces.eraseIdx k)[if k < i then i - 1 else i]? = some piece := by
        rw [eraseIdx_adj_getElem? hki hi]
        exact hg
      rw [move_result_capture hf hg hbne hv hcap hq hm]
      rw [uniquePositions]
      simp only []
      rw [eraseIdx_set_comm hki hi hk, distinctPos_iff_pairwise]
      -- only the piece at index k sits on `dest` in s.pieces
      have honly : ∀ (n : Nat) (x : Piece), n ≠ k → s.pieces[n]? = some x →
          x.position ≠ dest := by
        intro n x hnk hx
        intro he
        exact unique_getElem?_ne hu hnk hx hq (he.trans hqpos.symm)
      refine pairwise_of_getElem? ?_
      intro a b x y hab hx hy
      rw [List.getElem?_eraseIdx] at hx hy
      -- indices into `s.pieces.set i moved`
      have hset : ∀ (n : Nat) (z : Piece), n ≠ k →
          (s.pieces.set i { piece with position := dest, hasMoved := true })[n]? = some z →
          (n = i ∧ z = { piece with position := dest, hasMoved := true }) ∨
          (n ≠ i ∧ s.pieces[n]? = some z) := by
        intro n z hnk hz
        rw [List.getElem?_set] at hz
        by_cases hin : i = n
        · rw [if_pos hin, if_pos (hin ▸ hi)] at hz
          cases hz
          exact Or.inl ⟨hin.symm, rfl⟩
        · rw [if_neg hin] at hz
          exact Or.inr ⟨fun he => hin he.symm, hz⟩
      have hcore : ∀ (m n : Nat) (z w : Piece), m ≠ k → n ≠ k → m ≠ n →
          (s.pieces.set i { piece with position := dest, hasMoved := true })[m]? = some z →
          (s.pieces.set i { piece with position := dest, hasMoved := true })[n]? = some w →
          z.position ≠ w.position := by
        intro m n z w hmk hnk hmn hz hw
        rcases hset m z hmk hz with ⟨hmi, rfl⟩ | ⟨hmi, hz'⟩
        · rcases hset n w hnk hw with ⟨hni, rfl⟩ | ⟨hni, hw'⟩
          · exact absurd (hmi.trans hni.symm) hmn
          · exact fun he => honly n w hnk hw' he.symm
        · rcases hset n w hnk hw with ⟨hni, rfl⟩ | ⟨hni, hw'⟩
          · exact fun he => honly m z hmk hz' he
          · exact unique_getElem?_ne hu hmn hz' hw'
      by_cases hak : a < k
      · rw [if_pos hak] at hx
        by_cases hbk : b < k
        · rw [if_pos hbk] at hy
          exact hcore a b x y (by omega) (by omega) (by omega) hx hy
        · rw [if_neg hbk] at hy
          exact hcore a (b + 1) x y (by omega) (by omega) (by omega) hx hy
      · rw [if_neg hak] at hx
        by_cases hbk : b < k
        · rw [if_pos hbk] at hy
          exact hcore (a + 1) b x y (by omega) (by omega) (by omega) hx hy
        · rw [if_neg hbk] at hy
          exact hcore (a + 1) (b + 1) x y (by omega) (by omega) (by omega) hx hy

/-- Every reducer transition preserves the one-piece-per-square invariant. -/
theorem applyAction_preserves_unique {s : GameState} (a : Action)
    (hu : uniquePositions s) : uniquePositions (applyAction s a) := by
  cases a with
  | selectPiece pid =>
    rw [uniquePositions, applyAction_pieces_select]
    exact hu
  | deselectPiece => exact hu
  | movePiece pid dest => exact move_preserves_unique hu
  | endTurn => exact hu
  | resetGame => exact initial_unique

theorem reachable_unique {s : GameState} (h : Reachable s) : uniquePositions s := by
  induction h with
  | init => exact initial_unique
  | step a _ ih => exact applyAction_preserves_unique a ih

/-! ### Claim C3 -/

/-- C3: `applyAction` is total (it is a Lean function, so it can never
raise) and rejection is identity: a MOVE_PIECE whose piece id is unknown,
whose piece is not the current player's, or whose destination is not in
the piece's legal-move set — and a SELECT_PIECE whose id is unknown or
whose piece is not the current player's — returns the input state
unchanged. -/
theorem C3_rejection_identity :
    (∀ (s : GameState) (pid : String) (dest : Position),
      (∀ p ∈ s.pieces, p.id ≠ pid) → applyAction s (.movePiece pid dest) = s) ∧
    (∀ (s : GameState) (pid : String) (dest : Position) (piece : Piece),
      s.pieces.find? (fun p => p.id == pid) = some piece →
      piece.playerId ≠ s.currentPlayer → applyAction s (.movePiece pid dest) = s) ∧
    (∀ (s : GameState) (pid : String) (dest : Position) (piece : Piece),
      s.pieces.find? (fun p => p.id == pid) = some piece →
      dest ∉ getValidMoves piece s → applyAction s (.movePiece pid dest) = s) ∧
    (∀ (s : GameState) (pid : String),
      (∀ p ∈ s.pieces, p.id ≠ pid) → applyAction s (.selectPiece pid) = s) ∧
    (∀ (s : GameState) (pid : String) (piece : Piece),
      s.pieces.find? (fun p => p.id == pid) = some piece →
      piece.playerId ≠ s.currentPlayer → applyAction s (.selectPiece pid) = s) := by
  refine ⟨?_, ?_, ?_, ?_, ?_⟩
  · intro s pid dest hunk
    exact move_unknown_id (findIndex_eq_none.mpr
      (fun p hp => beq_eq_false_iff_ne.mpr (hunk p hp)))
  · intro s pid dest piece hfind hown
    obtain ⟨i, hf, hg⟩ := findIndex_of_find? hfind
    exact move_wrong_owner hf hg (bne_iff_ne.mpr hown)
  · intro s pid dest piece hfind hnm
    obtain ⟨i, hf, hg⟩ := findIndex_of_find? hfind
    cases hbe : (piece.playerId != s.currentPlayer) with
    | true => exact move_wrong_owner hf hg hbe
    | false =>
      refine move_invalid hf hg hbe ?_
      cases hv : isValidMove piece dest s with
      | false => rfl
      | true => exact absurd (isValidMove_iff.mp hv) hnm
  · intro s pid hunk
    exact select_unknown_id (List.find?_eq_none.mpr
      (fun p hp => by rw [beq_eq_false_iff_ne.mpr (hunk p hp)]; exact Bool.false_ne_true))
  · intro s pid piece hfind hown
    exact select_wrong_owner hfind (bne_iff_ne.mpr hown)

/-! ### Claim C4 -/

/-- C4: an accepted MOVE_PIECE and any END_TURN increment `turnNumber` by
one exactly when `currentPlayer = 2` and leave it unchanged otherwise (in
particular when `currentPlayer = 1`); over two successful alternating
half-moves starting with player 1 it increases exactly once; and it is
monotonically non-decreasing under MOVE_PIECE and END_TURN. -/
theorem C4_turn_increment :
    (∀ (s : GameState) (pid : String) (dest : Position),
      applyAction s (.movePiece pid dest) ≠ s →
      (applyAction s (.movePiece pid dest)).turnNumber =
        (if s.currentPlayer = 2 then s.turnNumber + 1 else s.turnNumber)) ∧
    (∀ s : GameState,
      (applyAction s .endTurn).turnNumber =
        (if s.currentPlayer = 2 then s.turnNumber + 1 else s.turnNumber)) ∧
    (∀ (s : GameState) (a₁ a₂ : Action),
      s.currentPlayer = 1 →
      ((∃ pid dest, a₁ = .movePiece pid dest) ∨ a₁ = .endTurn) →
      ((∃ pid dest, a₂ = .movePiece pid dest) ∨ a₂ = .endTurn) →
      applyAction s a₁ ≠ s →
      applyAction (applyAction s a₁) a₂ ≠ applyAction s a₁ →
      (applyAction (applyAction s a₁) a₂).turnNumber = s.turnNumber + 1) ∧
    (∀ (s : GameState) (a : Action),
      ((∃ pid dest, a = .movePiece pid dest) ∨ a = .endTurn) →
      s.turnNumber ≤ (applyAction s a).turnNumber) := by
  have hbeq : ∀ (c : Int) (t e : Int), (if c == 2 then t else e) = if c = 2 then t else e := by
    intro c t e
    by_cases h : c = 2 <;> simp [h]
  refine ⟨?_, ?_, ?_, ?_⟩
  · intro s pid dest h
    rw [(move_result_fields h).1, hbeq]
  · intro s
    have : (applyAction s .endTurn).turnNumber =
        (if s.currentPlayer == 2 then s.turnNumber + 1 else s.turnNumber) := rfl
    rw [this, hbeq]
  · intro s a₁ a₂ h1 ha1 ha2 hacc1 hacc2
    obtain ⟨ht1, hc1⟩ := turn_fields ha1 hacc1
    obtain ⟨ht2, -⟩ := turn_fields ha2 hacc2
    rw [ht2, hc1, ht1, h1]
    norm_num
  · intro s a ha
    rcases ha with ⟨pid, dest, rfl⟩ | rfl
    · by_cases h : applyAction s (.movePiece pid dest) = s
      · rw [h]
      · rw [(move_result_fields h).1]
        by_cases h2 : s.currentPlayer = 2 <;> simp [h2] <;> omega
    · have : (applyAction s .endTurn).turnNumber =
          (if s.currentPlayer == 2 then s.turnNumber + 1 else s.turnNumber) := rfl
      rw [this]
      by_cases h2 : s.currentPlayer = 2 <;> simp [h2] <;> omega

/-! ### Claims C2 and C10 -/

/-- C2 (amended with the data-model invariant "at most one piece per
position"): an accepted capturing MOVE_PIECE appends exactly the captured
piece `q` to `capturedPieces`, shrinks the active pieces by exactly one —
no other piece is lost or duplicated, even when `q`'s index precedes the
mover's (the permutation conjunct, which re-adds `q`, recovers the mover
update applied to the original sequence) — and the moved piece keeps its
id and ends at `dest` with `hasMoved = true`. -/
theorem C2_capture_effect :
    ∀ (s : GameState) (pid : String) (dest : Position) (q : Piece),
      uniquePositions s →
      applyAction s (.movePiece pid dest) ≠ s →
      q ∈ s.pieces → q.position = dest →
      (applyAction s (.movePiece pid dest)).capturedPieces = s.capturedPieces ++ [q] ∧
      (applyAction s (.movePiece pid dest)).pieces.length + 1 = s.pieces.length ∧
      (∃ m ∈ (applyAction s (.movePiece pid dest)).pieces,
        m.id = pid ∧ m.position = dest ∧ m.hasMoved = true) ∧
      (∃ (i : Nat) (piece : Piece),
        findIndex (fun p => p.id == pid) s.pieces = some i ∧
        s.pieces[i]? = some piece ∧
        ((applyAction s (.movePiece pid dest)).pieces ++ [q]).Perm
          (s.pieces.set i { piece with position := dest, hasMoved := true })) := by
  intro s pid dest q hu h hqmem hqdest
  obtain ⟨i, piece, hf, hg, how, hv⟩ := move_accepted h
  have hbne : (piece.playerId != s.currentPlayer) = false := by simp [how]
  have hi : i < s.pieces.length := findIndex_lt_length hf
  have hnd : dest ≠ piece.position := mem_getValidMoves_ne (isValidMove_iff.mp hv)
  -- the destination is occupied, so the capture branch runs
  cases hcap : findIndex (fun p => p.position.x == dest.x && p.position.y == dest.y)
      s.pieces with
  | none =>
    exact absurd (beq_position_iff.mpr hqdest)
      (by rw [findIndex_eq_none.mp hcap q hqmem]; exact Bool.false_ne_true)
  | some k =>
    obtain ⟨qq, hq, hqp⟩ := findIndex_getElem? hcap
    have hk : k < s.pieces.length := findIndex_lt_length hcap
    have hqqpos : qq.position = dest := beq_position_iff.mp hqp
    have hqeq : q = qq :=
      uniquePositions_eq_of_pos hu hqmem (List.getElem?_mem hq) (hqdest.trans hqqpos.symm)
    subst hqeq
    have hki : k ≠ i := by
      intro he
      subst he
      rw [hg] at hq
      cases hq
      exact hnd hqqpos.symm
    have hm : (s.pieces.eraseIdx k)[if k < i then i - 1 else i]? = some piece := by
      rw [eraseIdx_adj_getElem? hki hi]
      exact hg
    have hpid : piece.id = pid := by
      obtain ⟨x, hx, hxp⟩ := findIndex_getElem? hf
      rw [hg] at hx
      cases hx
      exact eq_of_beq hxp
    have hadjlt : (if k < i then i - 1 else i) < (s.pieces.eraseIdx k).length := by
      rw [List.length_eraseIdx, if_pos hk]
      split <;> omega
    rw [move_result_capture hf hg hbne hv hcap hq hm]
    refine ⟨rfl, ?_, ?_, ?_⟩
    · simp only [List.length_set, List.length_eraseIdx, if_pos hk]
      omega
    · refine ⟨{ piece with position := dest, hasMoved := true }, ?_, hpid, rfl, rfl⟩
      refine List.getElem?_mem (n := if k < i then i - 1 else i) ?_
      rw [List.getElem?_set, if_pos rfl, if_pos hadjlt]
    · refine ⟨i, piece, hf, hg, ?_⟩
      have hcomm := eraseIdx_set_comm
        (a := { piece with position := dest, hasMoved := true }) hki hi hk
      simp only [hcomm]
      refine eraseIdx_append_perm ?_
      rw [List.getElem?_set, if_neg (fun he => hki he.symm)]
      exact hq

/-- C10: the capture lookup selects the first piece at the destination
without checking its owner, yet an accepted MOVE_PIECE never captures the
mover's own piece: the appended piece's owner always differs from the
mover's, because `isValidMove` excludes same-player-occupied
destinations. -/
theorem C10_no_self_capture :
    ∀ (s : GameState) (pid : String) (dest : Position) (q m : Piece),
      uniquePositions s →
      applyAction s (.movePiece pid dest) ≠ s →
      (applyAction s (.movePiece pid dest)).capturedPieces = s.capturedPieces ++ [q] →
      s.pieces.find? (fun p => p.id == pid) = some m →
      q.playerId ≠ m.playerId := by
  intro s pid dest q m hu h hcapq hfindm
  obtain ⟨i, piece, hf, hg, how, hv⟩ := move_accepted h
  have hbne : (piece.playerId != s.currentPlayer) = false := by simp [how]
  have hi : i < s.pieces.length := findIndex_lt_length hf
  have hnd : dest ≠ piece.position := mem_getValidMoves_ne (isValidMove_iff.mp hv)
  have hmp : m = piece := by
    have heq := find?_eq_of_findIndex hf
    rw [hfindm, hg] at heq
    injection heq
  rw [hmp]
  cases hcap : findIndex (fun p => p.position.x == dest.x && p.position.y == dest.y)
      s.pieces with
  | none =>
    rw [move_result_no_capture hf hg hbne hv hcap] at hcapq
    exact absurd hcapq (by simp)
  | some k =>
    obtain ⟨qq, hq, hqp⟩ := findIndex_getElem? hcap
    have hki : k ≠ i := by
      intro he
      subst he
      rw [hg] at hq
      cases hq
      exact hnd (beq_position_iff.mp hqp).symm
    have heradj : (s.pieces.eraseIdx k)[if k < i then i - 1 else i]? = some piece := by
      rw [eraseIdx_adj_getElem? hki hi]
      exact hg
    rw [move_result_capture hf hg hbne hv hcap hq heradj] at hcapq
    have hqq : qq = q := by
      have := List.append_cancel_left hcapq
      injection this
    subst hqq
    have hat : getPieceAt dest s = some qq := by
      rw [getPieceAt, find?_eq_of_findIndex hcap, hq]
    rcases (mem_getValidMoves_props (isValidMove_iff.mp hv)).2 with hnone | ⟨r, hr, hne⟩
    · rw [hat] at hnone
      exact Option.noConfusion hnone
    · rw [hat] at hr
      injection hr with hr'
      exact hr' ▸ hne

/-! ### Claim C7 -/

/-- C7: "no two distinct pieces share a position" holds in
`createInitialState`, is preserved by `applyAction` for every action, and
therefore holds in every reachable state. -/
theorem C7_unique_positions_invariant :
    uniquePositions createInitialState ∧
    (∀ (s : GameState) (a : Action), uniquePositions s → uniquePositions (applyAction s a)) ∧
    (∀ s : GameState, Reachable s → uniquePositions s) :=
  ⟨initial_unique, fun _ a hu => applyAction_preserves_unique a hu,
    fun _ h => reachable_unique h⟩

/-- C7 witness: the invariant holds at the initial state, survives a
concrete transition, and holds at a concrete reachable state. -/
theorem C7_witness :
    uniquePositions (applyAction createInitialState .endTurn) ∧
    uniquePositions createInitialState :=
  ⟨C7_unique_positions_invariant.2.1 createInitialState .endTurn
      C7_unique_positions_invariant.1,
    C7_unique_positions_invariant.2.2 createInitialState Reachable.init⟩

/-! ### Claim C1 -/

/-- A position stacking two pieces of opposite owners (black first in the
sequence), which the data-model invariant forbids but the `GameState` type
allows. -/
def stackedState : GameState :=
  { board := { width := 8, height := 8, tiles := [] },
    pieces := [
      { id := "black-stacked", position := ⟨1, 2⟩, playerId := 2, type := .pawn,
        hasMoved := false },
      { id := "white-stacked", position := ⟨1, 2⟩, playerId := 1, type := .pawn,
        hasMoved := false } ],
    currentPlayer := 1,
    selectedPieceId := none,
    validMoves := [],
    turnNumber := 1,
    capturedPieces := [] }

/-- A white knight at the origin, not itself on the board's piece list. -/
def knightPiece : Piece :=
  { id := "white-knight", position := ⟨0, 0⟩, playerId := 1, type := .knight,
    hasMoved := false }

/-- C1 counterexample: over arbitrary states the claim fails — in
`stackedState` two pieces share square (1,2); the occupancy check sees
only the first (enemy) one, so the knight is offered (1,2) although a
piece of its own player also occupies it. -/
theorem C1_counterexample :
    (⟨1, 2⟩ : Position) ∈ getValidMoves knightPiece stackedState ∧
    ∃ q ∈ stackedState.pieces, q.position = ⟨1, 2⟩ ∧ q.playerId = knightPiece.playerId := by
  decide

/-- C1 (amended with the data-model invariant "at most one piece per
position"): every position returned by `getValidMoves` is on the board
and is not occupied by any piece of the moving piece's player. -/
theorem C1_moves_on_board_not_own :
    ∀ (piece : Piece) (s : GameState) (pos : Position),
      uniquePositions s →
      pos ∈ getValidMoves piece s →
      (0 ≤ pos.x ∧ pos.x < s.board.width ∧ 0 ≤ pos.y ∧ pos.y < s.board.height) ∧
      ∀ q ∈ s.pieces, q.position = pos → q.playerId ≠ piece.playerId := by
  intro piece s pos hu h
  obtain ⟨hv, hocc⟩ := mem_getValidMoves_props h
  constructor
  · rw [isValidPosition] at hv
    simp only [Bool.and_eq_true, decide_eq_true_eq] at hv
    omega
  · intro q hq hqpos
    rcases hocc with hnone | ⟨r, hr, hne⟩
    · exact absurd hqpos (getPieceAt_eq_none.mp hnone q hq)
    · have hrq : r = q := uniquePositions_eq_of_pos hu (getPieceAt_mem hr).1 hq
        ((getPieceAt_mem hr).2.trans hqpos.symm)
      exact hrq ▸ hne

/-- A legitimate single-occupancy state: white knight at the origin,
black pawn on (1,2). -/
def demoState : GameState :=
  { board := { width := 8, height := 8, tiles := [] },
    pieces := [
      { id := "white-knight", position := ⟨0, 0⟩, playerId := 1, type := .knight,
        hasMoved := false },
      { id := "black-pawn", position := ⟨1, 2⟩, playerId := 2, type := .pawn,
        hasMoved := false } ],
    currentPlayer := 1,
    selectedPieceId := none,
    validMoves := [],
    turnNumber := 1,
    capturedPieces := [] }

/-- C1 witness: the amended theorem applied at `demoState`. -/
theorem C1_witness :
    uniquePositions demoState ∧
    (⟨1, 2⟩ : Position) ∈ getValidMoves knightPiece demoState ∧
    ((0 ≤ (⟨1, 2⟩ : Position).x ∧ (⟨1, 2⟩ : Position).x < demoState.board.width ∧
        0 ≤ (⟨1, 2⟩ : Position).y ∧ (⟨1, 2⟩ : Position).y < demoState.board.height) ∧
      ∀ q ∈ demoState.pieces, q.position = ⟨1, 2⟩ → q.playerId ≠ knightPiece.playerId) :=
  ⟨by rw [uniquePositions]; decide, by decide,
    C1_moves_on_board_not_own knightPiece demoState ⟨1, 2⟩
      (by rw [uniquePositions]; decide) (by decide)⟩

/-- The black pawn of `demoState`, the capture target at (1,2). -/
def blackPawn : Piece :=
  { id := "black-pawn", position := ⟨1, 2⟩, playerId := 2, type := .pawn,
    hasMoved := false }

/-- Two enemy pawns stacked on (1,2) with a white knight ready to
capture there; the data-model invariant forbids the stacking but the
`GameState` type allows it. -/
def stackedCapState : GameState :=
  { board := { width := 8, height := 8, tiles := [] },
    pieces := [
      { id := "white-knight", position := ⟨0, 0⟩, playerId := 1, type := .knight,
        hasMoved := false },
      { id := "black-stacked-1", position := ⟨1, 2⟩, playerId := 2, type := .pawn,
        hasMoved := false },
      { id := "black-stacked-2", position := ⟨1, 2⟩, playerId := 2, type := .pawn,
        hasMoved := false } ],
    currentPlayer := 1,
    selectedPieceId := none,
    validMoves := [],
    turnNumber := 1,
    capturedPieces := [] }

/-- The second stacked black pawn of `stackedCapState`. -/
def stackedBlack2 : Piece :=
  { id := "black-stacked-2", position := ⟨1, 2⟩, playerId := 2, type := .pawn,
    hasMoved := false }

/-- C2 counterexample: over arbitrary states the claim fails — in
`stackedCapState` two enemy pawns share the destination (1,2); the
accepted knight capture removes only the first of them, so for the other
occupant `stackedBlack2` the "appends exactly q" conjunct is false even
though it too is a piece q at the destination. -/
theorem C2_counterexample :
    applyAction stackedCapState (.movePiece "white-knight" ⟨1, 2⟩) ≠ stackedCapState ∧
    stackedBlack2 ∈ stackedCapState.pieces ∧ stackedBlack2.position = ⟨1, 2⟩ ∧
    (applyAction stackedCapState (.movePiece "white-knight" ⟨1, 2⟩)).capturedPieces ≠
      stackedCapState.capturedPieces ++ [stackedBlack2] := by
  decide

/-- C2 witness: the knight capture of the black pawn in `demoState`. -/
theorem C2_witness :
    uniquePositions demoState ∧
    applyAction demoState (.movePiece "white-knight" ⟨1, 2⟩) ≠ demoState ∧
    blackPawn ∈ demoState.pieces ∧ blackPawn.position = ⟨1, 2⟩ ∧
    ((applyAction demoState (.movePiece "white-knight" ⟨1, 2⟩)).capturedPieces =
        demoState.capturedPieces ++ [blackPawn] ∧
      (applyAction demoState (.movePiece "white-knight" ⟨1, 2⟩)).pieces.length + 1 =
        demoState.pieces.length ∧
      (∃ m ∈ (applyAction demoState (.movePiece "white-knight" ⟨1, 2⟩)).pieces,
        m.id = "white-knight" ∧ m.position = ⟨1, 2⟩ ∧ m.hasMoved = true) ∧
      (∃ (i : Nat) (piece : Piece),
        findIndex (fun p => p.id == "white-knight") demoState.pieces = some i ∧
        demoState.pieces[i]? = some piece ∧
        ((applyAction demoState (.movePiece "white-knight" ⟨1, 2⟩)).pieces ++
            [blackPawn]).Perm
          (demoState.pieces.set i { piece with position := ⟨1, 2⟩, hasMoved := true }))) :=
  ⟨by rw [uniquePositions]; decide, by decide, by decide, rfl,
    C2_capture_effect demoState "white-knight" ⟨1, 2⟩ blackPawn
      (by rw [uniquePositions]; decide) (by decide) (by decide) rfl⟩

/-- C3 witness: a MOVE_PIECE with an unknown id leaves `demoState`
unchanged. -/
theorem C3_witness :
    (∀ p ∈ demoState.pieces, p.id ≠ "ghost") ∧
    applyAction demoState (.movePiece "ghost" ⟨3, 3⟩) = demoState :=
  ⟨by decide, C3_rejection_identity.1 demoState "ghost" ⟨3, 3⟩ (by decide)⟩

/-- C4 witness: player 1's accepted capture leaves `turnNumber` at 1, and
the following END_TURN by player 2 raises it to 2. -/
theorem C4_witness :
    applyAction demoState (.movePiece "white-knight" ⟨1, 2⟩) ≠ demoState ∧
    (applyAction demoState (.movePiece "white-knight" ⟨1, 2⟩)).turnNumber =
      (if demoState.currentPlayer = 2 then demoState.turnNumber + 1
        else demoState.turnNumber) ∧
    (applyAction (applyAction demoState (.movePiece "white-knight" ⟨1, 2⟩))
        .endTurn).turnNumber = demoState.turnNumber + 1 :=
  ⟨by decide,
    C4_turn_increment.1 demoState "white-knight" ⟨1, 2⟩ (by decide),
    C4_turn_increment.2.2.1 demoState (.movePiece "white-knight" ⟨1, 2⟩) .endTurn rfl
      (Or.inl ⟨"white-knight", ⟨1, 2⟩, rfl⟩) (Or.inr rfl) (by decide) (by decide)⟩

/-- C10 witness: the piece captured by the knight in `demoState` belongs
to the opponent. -/
theorem C10_witness :
    uniquePositions demoState ∧
    applyAction demoState (.movePiece "white-knight" ⟨1, 2⟩) ≠ demoState ∧
    (applyAction demoState (.movePiece "white-knight" ⟨1, 2⟩)).capturedPieces =
      demoState.capturedPieces ++ [blackPawn] ∧
    demoState.pieces.find? (fun p => p.id == "white-knight") = some knightPiece ∧
    blackPawn.playerId ≠ knightPiece.playerId :=
  ⟨by rw [uniquePositions]; decide, by decide, by decide, by decide,
    C10_no_self_capture demoState "white-knight" ⟨1, 2⟩ blackPawn knightPiece
      (by rw [uniquePositions]; decide) (by decide) (by decide) (by decide)⟩

/-! ### Claim C5: sliding-piece rays -/

/-- The sliding directions a rook, bishop or queen scans, per
ChessRules.ts (the queen concatenates the rook and bishop scans). -/
def pieceSlideDirs : PieceType → List (Int × Int)
  | .rook => rookDirections
  | .bishop => bishopDirections
  | .queen => rookDirections ++ bishopDirections
  | _ => []

theorem unit_dir_eq {a b : Int} {k m : Nat}
    (ha : a = -1 ∨ a = 0 ∨ a = 1) (hb : b = -1 ∨ b = 0 ∨ b = 1)
    (hk : 1 ≤ k) (hm : 1 ≤ m) (h : a * (k : Int) = b * (m : Int)) : a = b := by
  rcases ha with rfl | rfl | rfl <;> rcases hb with rfl | rfl | rfl <;> omega

theorem slide_dir_components :
    ∀ d ∈ rookDirections ++ bishopDirections,
      (d.1 = -1 ∨ d.1 = 0 ∨ d.1 = 1) ∧ (d.2 = -1 ∨ d.2 = 0 ∨ d.2 = 1) ∧
        ¬(d.1 = 0 ∧ d.2 = 0) := by
  decide

/-- Distinct scan rays are disjoint: a square at positive distance along
one unit direction determines that direction and the distance. -/
theorem ray_eq {piece : Piece} {d d' : Int × Int} {k m : Nat}
    (hd : d ∈ rookDirections ++ bishopDirections)
    (hd' : d' ∈ rookDirections ++ bishopDirections)
    (hk : 1 ≤ k) (hm : 1 ≤ m)
    (h : shiftPos piece d.1 d.2 k = shiftPos piece d'.1 d'.2 m) : d = d' ∧ k = m := by
  obtain ⟨h1, h2, h3⟩ := slide_dir_components d hd
  obtain ⟨h1', h2', -⟩ := slide_dir_components d' hd'
  have hx : d.1 * (k : Int) = d'.1 * (m : Int) := by
    have := congrArg Position.x h
    simp only [shiftPos] at this
    omega
  have hy : d.2 * (k : Int) = d'.2 * (m : Int) := by
    have := congrArg Position.y h
    simp only [shiftPos] at this
    omega
  have e1 : d.1 = d'.1 := unit_dir_eq h1 h1' hk hm hx
  have e2 : d.2 = d'.2 := unit_dir_eq h2 h2' hk hm hy
  refine ⟨Prod.ext e1 e2, ?_⟩
  rw [← e1] at hx
  rw [← e2] at hy
  rcases h1 with h | h | h <;> rcases h2 with h' | h' | h' <;>
    first
      | (rw [h] at hx; rw [h'] at hy; omega)
      | exact absurd ⟨h, h'⟩ h3

/-- Two valid squares on a ray bound the distance by the board size, so
`slideFuel` always suffices. -/
theorem shift_valid_bound {piece : Piece} {s : GameState} {d : Int × Int} {k : Nat}
    (hd : d ∈ rookDirections ++ bishopDirections) (hk : 1 ≤ k)
    (h1 : isValidPosition (shiftPos piece d.1 d.2 1) s = true)
    (hkv : isValidPosition (shiftPos piece d.1 d.2 k) s = true) :
    k < 1 + slideFuel s := by
  obtain ⟨ha, hb, hab⟩ := slide_dir_components d hd
  rw [isValidPosition] at h1 hkv
  simp only [Bool.and_eq_true, decide_eq_true_eq, shiftPos] at h1 hkv
  rw [slideFuel]
  rcases ha with h | h | h <;> rcases hb with h' | h' | h' <;>
    first
      | (rw [h] at h1 hkv; rw [h'] at h1 hkv; omega)
      | exact absurd ⟨h, h'⟩ hab

/-- Membership in a sliding piece's move list is membership in one of its
direction scans. -/
theorem mem_slider_moves {piece : Piece} {s : GameState} {pos : Position}
    (ht : piece.type = .rook ∨ piece.type = .bishop ∨ piece.type = .queen) :
    pos ∈ getValidMoves piece s ↔
      ∃ d ∈ pieceSlideDirs piece.type, pos ∈ slideAux piece s d.1 d.2 (slideFuel s) 1 := by
  rcases ht with h | h | h <;> rw [getValidMoves, h, pieceSlideDirs]
  · rw [getRookMoves, List.mem_flatten]
    constructor
    · rintro ⟨l, hl, hpos⟩
      obtain ⟨d, hd, rfl⟩ := List.mem_map.mp hl
      exact ⟨d, hd, hpos⟩
    · rintro ⟨d, hd, hpos⟩
      exact ⟨_, List.mem_map.mpr ⟨d, hd, rfl⟩, hpos⟩
  · rw [getBishopMoves, List.mem_flatten]
    constructor
    · rintro ⟨l, hl, hpos⟩
      obtain ⟨d, hd, rfl⟩ := List.mem_map.mp hl
      exact ⟨d, hd, hpos⟩
    · rintro ⟨d, hd, hpos⟩
      exact ⟨_, List.mem_map.mpr ⟨d, hd, rfl⟩, hpos⟩
  · rw [getQueenMoves, getRookMoves, getBishopMoves]
    rw [List.mem_append, List.mem_flatten, List.mem_flatten]
    constructor
    · rintro (⟨l, hl, hpos⟩ | ⟨l, hl, hpos⟩)
      · obtain ⟨d, hd, rfl⟩ := List.mem_map.mp hl
        exact ⟨d, List.mem_append_left _ hd, hpos⟩
      · obtain ⟨d, hd, rfl⟩ := List.mem_map.mp hl
        exact ⟨d, List.mem_append_right _ hd, hpos⟩
    · rintro ⟨d, hd, hpos⟩
      rcases List.mem_append.mp hd with hd' | hd'
      · exact Or.inl ⟨_, List.mem_map.mpr ⟨d, hd', rfl⟩, hpos⟩
      · exact Or.inr ⟨_, List.mem_map.mpr ⟨d, hd', rfl⟩, hpos⟩

theorem pieceSlideDirs_subset {t : PieceType}
    (ht : t = .rook ∨ t = .bishop ∨ t = .queen) :
    ∀ d ∈ pieceSlideDirs t, d ∈ rookDirections ++ bishopDirections := by
  rcases ht with rfl | rfl | rfl <;> intro d hd
  · exact List.mem_append_left _ hd
  · exact List.mem_append_right _ hd
  · exact hd

/-- C5 (amended with the data-model invariant "at most one piece per
position"): along each sliding direction of a rook, bishop or queen, the
move list contains every square whose whole prefix of the ray (itself
included) is on the board and empty; contains the first occupied square
of the ray exactly when its occupant is enemy-owned; and contains nothing
on the ray beyond the first occupied square. -/
theorem C5_sliding_rays :
    ∀ (piece : Piece) (s : GameState) (d : Int × Int),
      uniquePositions s →
      (piece.type = .rook ∨ piece.type = .bishop ∨ piece.type = .queen) →
      d ∈ pieceSlideDirs piece.type →
      (∀ k : Nat, 1 ≤ k →
        (∀ j : Nat, 1 ≤ j → j ≤ k → isValidPosition (shiftPos piece d.1 d.2 j) s = true ∧
          (∀ q ∈ s.pieces, q.position ≠ shiftPos piece d.1 d.2 j)) →
        shiftPos piece d.1 d.2 k ∈ getValidMoves piece s) ∧
      (∀ k : Nat, 1 ≤ k →
        (∀ j : Nat, 1 ≤ j → j < k → isValidPosition (shiftPos piece d.1 d.2 j) s = true ∧
          (∀ q ∈ s.pieces, q.position ≠ shiftPos piece d.1 d.2 j)) →
        isValidPosition (shiftPos piece d.1 d.2 k) s = true →
        ∀ q ∈ s.pieces, q.position = shiftPos piece d.1 d.2 k →
        (shiftPos piece d.1 d.2 k ∈ getValidMoves piece s ↔
          q.playerId ≠ piece.playerId)) ∧
      (∀ k m : Nat, 1 ≤ k → k < m →
        (∀ j : Nat, 1 ≤ j → j < k → isValidPosition (shiftPos piece d.1 d.2 j) s = true ∧
          (∀ q ∈ s.pieces, q.position ≠ shiftPos piece d.1 d.2 j)) →
        (∃ q ∈ s.pieces, q.position = shiftPos piece d.1 d.2 k) →
        shiftPos piece d.1 d.2 m ∉ getValidMoves piece s) := by
  intro piece s d hu ht hd
  have hdall : d ∈ rookDirections ++ bishopDirections := pieceSlideDirs_subset ht d hd
  refine ⟨?_, ?_, ?_⟩
  · -- every all-empty prefix square is reachable
    intro k hk hpre
    rw [mem_slider_moves ht]
    refine ⟨d, hd, mem_slideAux.mpr ⟨k, hk, ?_, rfl, ?_, (hpre k hk le_rfl).1,
      Or.inl (getPieceAt_eq_none.mpr (hpre k hk le_rfl).2)⟩⟩
    · have hb := shift_valid_bound hdall hk (hpre 1 le_rfl hk).1 (hpre k hk le_rfl).1
      omega
    · intro j hj1 hj2
      exact ⟨(hpre j hj1 (by omega)).1,
        getPieceAt_eq_none.mpr (hpre j hj1 (by omega)).2⟩
  · -- the first occupied square is a move exactly for an enemy occupant
    intro k hk hpre hkv q hqmem hqpos
    constructor
    · intro hmem
      rw [mem_slider_moves ht] at hmem
      obtain ⟨d', hd', hmem'⟩ := hmem
      obtain ⟨k', hk'1, -, hpos', hint', -, hocc'⟩ := mem_slideAux.mp hmem'
      obtain ⟨hdd, hkk⟩ := ray_eq hdall (pieceSlideDirs_subset ht d' hd') hk hk'1 hpos'
      subst hdd
      subst hkk
      rcases hocc' with hnone | ⟨r, hr, hne⟩
      · exact absurd hqpos (getPieceAt_eq_none.mp hnone q hqmem)
      · have hr' := getPieceAt_mem hr
        have : r = q := uniquePositions_eq_of_pos hu hr'.1 hqmem (hr'.2.trans hqpos.symm)
        exact this ▸ hne
    · intro hne
      rw [mem_slider_moves ht]
      have hkv1 : isValidPosition (shiftPos piece d.1 d.2 1) s = true := by
        by_cases h1 : k = 1
        · exact h1 ▸ hkv
        · exact (hpre 1 le_rfl (by omega)).1
      refine ⟨d, hd, mem_slideAux.mpr ⟨k, hk, ?_, rfl, ?_, hkv,
        Or.inr ⟨q, getPieceAt_of_mem_unique hu hqmem hqpos, hne⟩⟩⟩
      · have hb := shift_valid_bound hdall hk hkv1 hkv
        omega
      · intro j hj1 hj2
        exact ⟨(hpre j hj1 hj2).1, getPieceAt_eq_none.mpr (hpre j hj1 hj2).2⟩
  · -- nothing beyond the first occupied square of the ray
    intro k m hk hkm hpre hocc hmem
    rw [mem_slider_moves ht] at hmem
    obtain ⟨d', hd', hmem'⟩ := hmem
    obtain ⟨k', hk'1, -, hpos', hint', -, -⟩ := mem_slideAux.mp hmem'
    obtain ⟨hdd, hkk⟩ := ray_eq hdall (pieceSlideDirs_subset ht d' hd')
      (by omega : 1 ≤ m) hk'1 hpos'
    subst hdd
    subst hkk
    obtain ⟨q, hqmem, hqpos⟩ := hocc
    exact absurd hqpos
      (getPieceAt_eq_none.mp (hint' k hk hkm).2 q hqmem)

/-- Two stacked pieces (white first) on the rook's ray, violating the
single-occupancy invariant. -/
def stackedRookState : GameState :=
  { board := { width := 8, height := 8, tiles := [] },
    pieces := [
      { id := "white-blocker", position := ⟨1, 0⟩, playerId := 1, type := .pawn,
        hasMoved := false },
      { id := "black-target", position := ⟨1, 0⟩, playerId := 2, type := .pawn,
        hasMoved := false } ],
    currentPlayer := 1,
    selectedPieceId := none,
    validMoves := [],
    turnNumber := 1,
    capturedPieces := [] }

/-- A white rook at the origin, used as the moving piece. -/
def rookPiece : Piece :=
  { id := "white-rook", position := ⟨0, 0⟩, playerId := 1, type := .rook,
    hasMoved := false }

/-- C5 counterexample: over arbitrary states the claim fails — in
`stackedRookState` the first occupied square (1,0) of the rightward ray
holds an enemy-owned occupant, yet the rook is not offered that square,
because the occupancy check sees only the first (own) piece in the
sequence. -/
theorem C5_counterexample :
    (1, 0) ∈ pieceSlideDirs rookPiece.type ∧
    (∃ q ∈ stackedRookState.pieces,
      q.position = shiftPos rookPiece 1 0 1 ∧ q.playerId ≠ rookPiece.playerId) ∧
    shiftPos rookPiece 1 0 1 ∉ getValidMoves rookPiece stackedRookState := by
  decide

/-- A black pawn one square above the rook's origin square. -/
def rookCaptureState : GameState :=
  { board := { width := 8, height := 8, tiles := [] },
    pieces := [
      { id := "black-pawn-up", position := ⟨0, 1⟩, playerId := 2, type := .pawn,
        hasMoved := false } ],
    currentPlayer := 1,
    selectedPieceId := none,
    validMoves := [],
    turnNumber := 1,
    capturedPieces := [] }

/-- C5 witness: the enemy pawn on the first square of the upward ray is a
legal rook capture. -/
theorem C5_witness :
    uniquePositions rookCaptureState ∧
    (0, 1) ∈ pieceSlideDirs rookPiece.type ∧
    shiftPos rookPiece 0 1 1 ∈ getValidMoves rookPiece rookCaptureState :=
  ⟨by rw [uniquePositions]; decide, by decide,
    ((C5_sliding_rays rookPiece rookCaptureState (0, 1)
        (by rw [uniquePositions]; decide) (Or.inl rfl) (by decide)).2.1 1 le_rfl
      (fun j hj1 hj2 => absurd (Nat.lt_of_lt_of_le hj2 hj1) (Nat.lt_irrefl j))
      (by decide)
      { id := "black-pawn-up", position := ⟨0, 1⟩, playerId := 2, type := .pawn,
        hasMoved := false }
      (by decide) (by decide)).mpr (by decide)⟩

/-! ### Claim C6: pawn moves -/

theorem countP_if_singleton {α : Type _} {c : Bool} {a : α} {p : α → Bool} :
    (if c = true then [a] else []).countP p = if (c && p a) = true then 1 else 0 := by
  cases c <;> cases hp : p a <;> simp [List.countP_cons, hp]

/-- The number of forward (same-file) pawn moves, by the four push sites:
2 when the double step fires, 1 when only the single step does, else 0. -/
theorem pawn_forward_countP {piece : Piece} {s : GameState} :
    (getPawnMoves piece s).countP (fun pos => pos.x == piece.position.x) =
      (if (isValidPosition ⟨piece.position.x, piece.position.y + pawnDirection piece⟩ s &&
            isEmpty ⟨piece.position.x, piece.position.y + pawnDirection piece⟩ s) = true then
        (if (!piece.hasMoved &&
              (isValidPosition
                  ⟨piece.position.x, piece.position.y + 2 * pawnDirection piece⟩ s &&
                isEmpty
                  ⟨piece.position.x, piece.position.y + 2 * pawnDirection piece⟩ s)) = true
          then 2 else 1)
        else 0) := by
  have hx1 : ((piece.position.x : Int) == piece.position.x) = true := by simp
  have hxl : ((piece.position.x - 1 : Int) == piece.position.x) = false := by
    rw [beq_eq_false_iff_ne]
    omega
  have hxr : ((piece.position.x + 1 : Int) == piece.position.x) = false := by
    rw [beq_eq_false_iff_ne]
    omega
  simp only [getPawnMoves, List.countP_append, countP_if_singleton]
  rw [hxl, hxr]
  simp only [Bool.and_false, if_neg Bool.false_ne_true, Nat.add_zero]
  by_cases hc1 : (isValidPosition ⟨piece.position.x, piece.position.y + pawnDirection piece⟩ s &&
      isEmpty ⟨piece.position.x, piece.position.y + pawnDirection piece⟩ s) = true
  · rw [if_pos hc1, if_pos hc1]
    cases hm : piece.hasMoved with
    | true =>
      simp only [hm, Bool.not_true, Bool.false_and, if_neg Bool.false_ne_true]
      simp [List.countP_cons, hx1]
    | false =>
      simp only [hm, Bool.not_false, Bool.true_and]
      by_cases hc2 : (isValidPosition
          ⟨piece.position.x, piece.position.y + 2 * pawnDirection piece⟩ s &&
          isEmpty ⟨piece.position.x, piece.position.y + 2 * pawnDirection piece⟩ s) = true
      · rw [if_pos hc2, if_pos hc2]
        simp [List.countP_cons, hx1]
      · rw [if_neg hc2, if_neg hc2]
        simp [List.countP_cons, hx1]
  · rw [if_neg hc1, if_neg hc1]
    simp [List.countP_cons]

/-- C6 (amended with the data-model invariant "at most one piece per
position"): the single forward step is offered exactly when its square is
on-board and empty; the double step exactly when the pawn has not moved
and both forward squares are on-board and empty; each forward diagonal
exactly when it is on-board and occupied by an enemy piece; and the pawn
has exactly 2 forward (same-file) moves when unmoved with both forward
squares on-board and empty, and at most 1 once it has moved. -/
theorem C6_pawn_moves :
    ∀ (piece : Piece) (s : GameState),
      uniquePositions s →
      piece.type = .pawn →
      ((⟨piece.position.x, piece.position.y + pawnDirection piece⟩ : Position) ∈
          getValidMoves piece s ↔
        isValidPosition ⟨piece.position.x, piece.position.y + pawnDirection piece⟩ s = true ∧
        (∀ q ∈ s.pieces,
          q.position ≠ ⟨piece.position.x, piece.position.y + pawnDirection piece⟩)) ∧
      ((⟨piece.position.x, piece.position.y + 2 * pawnDirection piece⟩ : Position) ∈
          getValidMoves piece s ↔
        piece.hasMoved = false ∧
        isValidPosition ⟨piece.position.x, piece.position.y + pawnDirection piece⟩ s = true ∧
        (∀ q ∈ s.pieces,
          q.position ≠ ⟨piece.position.x, piece.position.y + pawnDirection piece⟩) ∧
        isValidPosition ⟨piece.position.x, piece.position.y + 2 * pawnDirection piece⟩ s
          = true ∧
        (∀ q ∈ s.pieces,
          q.position ≠ ⟨piece.position.x, piece.position.y + 2 * pawnDirection piece⟩)) ∧
      ((⟨piece.position.x - 1, piece.position.y + pawnDirection piece⟩ : Position) ∈
          getValidMoves piece s ↔
        isValidPosition ⟨piece.position.x - 1, piece.position.y + pawnDirection piece⟩ s
          = true ∧
        ∃ q ∈ s.pieces,
          q.position = ⟨piece.position.x - 1, piece.position.y + pawnDirection piece⟩ ∧
          q.playerId ≠ piece.playerId) ∧
      ((⟨piece.position.x + 1, piece.position.y + pawnDirection piece⟩ : Position) ∈
          getValidMoves piece s ↔
        isValidPosition ⟨piece.position.x + 1, piece.position.y + pawnDirection piece⟩ s
          = true ∧
        ∃ q ∈ s.pieces,
          q.position = ⟨piece.position.x + 1, piece.position.y + pawnDirection piece⟩ ∧
          q.playerId ≠ piece.playerId) ∧
      (piece.hasMoved = false →
        isValidPosition ⟨piece.position.x, piece.position.y + pawnDirection piece⟩ s = true →
        (∀ q ∈ s.pieces,
          q.position ≠ ⟨piece.position.x, piece.position.y + pawnDirection piece⟩) →
        isValidPosition ⟨piece.position.x, piece.position.y + 2 * pawnDirection piece⟩ s
          = true →
        (∀ q ∈ s.pieces,
          q.position ≠ ⟨piece.position.x, piece.position.y + 2 * pawnDirection piece⟩) →
        (getValidMoves piece s).countP (fun pos => pos.x == piece.position.x) = 2) ∧
      (piece.hasMoved = true →
        (getValidMoves piece s).countP (fun pos => pos.x == piece.position.x) ≤ 1) := by
  intro piece s hu ht
  have hd := pawnDirection_cases piece
  have hgv : getValidMoves piece s = getPawnMoves piece s := by rw [getValidMoves, ht]
  have hempty : ∀ pos : Position, isEmpty pos s = true ↔ ∀ q ∈ s.pieces, q.position ≠ pos := by
    intro pos
    rw [isEmpty_iff, getPieceAt_eq_none]
  have henemy : ∀ pos : Position, isEnemyAt pos piece.playerId s = true ↔
      ∃ q ∈ s.pieces, q.position = pos ∧ q.playerId ≠ piece.playerId := by
    intro pos
    rw [isEnemyAt_iff]
    constructor
    · rintro ⟨q, hq, hne⟩
      obtain ⟨hqm, hqp⟩ := getPieceAt_mem hq
      exact ⟨q, hqm, hqp, hne⟩
    · rintro ⟨q, hqm, hqp, hne⟩
      exact ⟨q, getPieceAt_of_mem_unique hu hqm hqp, hne⟩
  refine ⟨?_, ?_, ?_, ?_, ?_, ?_⟩
  · rw [hgv, mem_getPawnMoves]
    constructor
    · rintro (⟨-, hv, he⟩ | ⟨heq, -⟩ | ⟨heq, -⟩ | ⟨heq, -⟩)
      · exact ⟨hv, (hempty _).mp he⟩
      · have hy := congrArg Position.y heq
        simp only [] at hy
        rcases hd with h | h <;> rw [h] at hy <;> omega
      · have hx := congrArg Position.x heq
        simp only [] at hx
        omega
      · have hx := congrArg Position.x heq
        simp only [] at hx
        omega
    · rintro ⟨hv, he⟩
      exact Or.inl ⟨rfl, hv, (hempty _).mpr he⟩
  · rw [hgv, mem_getPawnMoves]
    constructor
    · rintro (⟨heq, -⟩ | ⟨-, hv1, he1, hm, hv2, he2⟩ | ⟨heq, -⟩ | ⟨heq, -⟩)
      · have hy := congrArg Position.y heq
        simp only [] at hy
        rcases hd with h | h <;> rw [h] at hy <;> omega
      · exact ⟨hm, hv1, (hempty _).mp he1, hv2, (hempty _).mp he2⟩
      · have hx := congrArg Position.x heq
        simp only [] at hx
        omega
      · have hx := congrArg Position.x heq
        simp only [] at hx
        omega
    · rintro ⟨hm, hv1, he1, hv2, he2⟩
      exact Or.inr (Or.inl ⟨rfl, hv1, (hempty _).mpr he1, hm, hv2, (hempty _).mpr he2⟩)
  · rw [hgv, mem_getPawnMoves]
    constructor
    · rintro (⟨heq, -⟩ | ⟨heq, -⟩ | ⟨-, hv, he⟩ | ⟨heq, -⟩)
      · have hx := congrArg Position.x heq
        simp only [] at hx
        omega
      · have hx := congrArg Position.x heq
        simp only [] at hx
        omega
      · exact ⟨hv, (henemy _).mp he⟩
      · have hx := congrArg Position.x heq
        simp only [] at hx
        omega
    · rintro ⟨hv, he⟩
      exact Or.inr (Or.inr (Or.inl ⟨rfl, hv, (henemy _).mpr he⟩))
  · rw [hgv, mem_getPawnMoves]
    constructor
    · rintro (⟨heq, -⟩ | ⟨heq, -⟩ | ⟨heq, -⟩ | ⟨-, hv, he⟩)
      · have hx := congrArg Position.x heq
        simp only [] at hx
        omega
      · have hx := congrArg Position.x heq
        simp only [] at hx
        omega
      · have hx := congrArg Position.x heq
        simp only [] at hx
        omega
      · exact ⟨hv, (henemy _).mp he⟩
    · rintro ⟨hv, he⟩
      exact Or.inr (Or.inr (Or.inr ⟨rfl, hv, (henemy _).mpr he⟩))
  · intro hm hv1 he1 hv2 he2
    have hie1 : isEmpty ⟨piece.position.x, piece.position.y + pawnDirection piece⟩ s
        = true := (hempty _).mpr he1
    have hie2 : isEmpty ⟨piece.position.x, piece.position.y + 2 * pawnDirection piece⟩ s
        = true := (hempty _).mpr he2
    rw [hgv, pawn_forward_countP, if_pos (by rw [hv1, hie1]; rfl),
      if_pos (by rw [hm, hv2, hie2]; rfl)]
  · intro hm
    rw [hgv, pawn_forward_countP, hm]
    simp only [Bool.not_true, Bool.false_and, if_neg Bool.false_ne_true]
    split <;> omega

/-- A white pawn used as the moving piece in the C6 scenarios. -/
def pawnPiece : Piece :=
  { id := "white-pawn", position := ⟨3, 1⟩, playerId := 1, type := .pawn,
    hasMoved := false }

/-- Two stacked pieces (own first) on the pawn's forward-right diagonal,
violating the single-occupancy invariant. -/
def stackedDiagState : GameState :=
  { board := { width := 8, height := 8, tiles := [] },
    pieces := [
      { id := "white-diag", position := ⟨4, 2⟩, playerId := 1, type := .pawn,
        hasMoved := false },
      { id := "black-diag", position := ⟨4, 2⟩, playerId := 2, type := .pawn,
        hasMoved := false } ],
    currentPlayer := 1,
    selectedPieceId := none,
    validMoves := [],
    turnNumber := 1,
    capturedPieces := [] }

/-- C6 counterexample: over arbitrary states the claim fails — in
`stackedDiagState` the forward-right diagonal is on-board and occupied by
an enemy piece, yet it is not offered, because the occupancy check sees
only the first (own) piece in the sequence. -/
theorem C6_counterexample :
    isValidPosition
      ⟨pawnPiece.position.x + 1, pawnPiece.position.y + pawnDirection pawnPiece⟩
      stackedDiagState = true ∧
    (∃ q ∈ stackedDiagState.pieces,
      q.position =
        ⟨pawnPiece.position.x + 1, pawnPiece.position.y + pawnDirection pawnPiece⟩ ∧
      q.playerId ≠ pawnPiece.playerId) ∧
    (⟨pawnPiece.position.x + 1, pawnPiece.position.y + pawnDirection pawnPiece⟩ :
      Position) ∉ getValidMoves pawnPiece stackedDiagState := by
  decide

/-- A single enemy piece on the pawn's forward-right diagonal; both
forward squares empty. -/
def pawnDemoState : GameState :=
  { board := { width := 8, height := 8, tiles := [] },
    pieces := [
      { id := "black-diag-only", position := ⟨4, 2⟩, playerId := 2, type := .pawn,
        hasMoved := false } ],
    currentPlayer := 1,
    selectedPieceId := none,
    validMoves := [],
    turnNumber := 1,
    capturedPieces := [] }

/-- C6 witness: the unmoved pawn with free forward squares has the double
step and the diagonal capture, and exactly two forward moves. -/
theorem C6_witness :
    uniquePositions pawnDemoState ∧
    (⟨pawnPiece.position.x, pawnPiece.position.y + 2 * pawnDirection pawnPiece⟩ :
      Position) ∈ getValidMoves pawnPiece pawnDemoState ∧
    (⟨pawnPiece.position.x + 1, pawnPiece.position.y + pawnDirection pawnPiece⟩ :
      Position) ∈ getValidMoves pawnPiece pawnDemoState ∧
    (getValidMoves pawnPiece pawnDemoState).countP
      (fun pos => pos.x == pawnPiece.position.x) = 2 := by
  have h := C6_pawn_moves pawnPiece pawnDemoState (by rw [uniquePositions]; decide) rfl
  exact ⟨by rw [uniquePositions]; decide,
    h.2.1.mpr ⟨rfl, by decide, by decide, by decide, by decide⟩,
    h.2.2.2.1.mpr ⟨by decide, by decide⟩,
    h.2.2.2.2.1 rfl (by decide) (by decide) (by decide) (by decide)⟩

/-! ### JSON round-trip: sizes and numerals -/

mutual

/-- Node-count measure of a JSON tree, bounding the parser fuel. -/
def jsize : Json → Nat
  | .null => 1
  | .bool _ => 1
  | .num _ => 1
  | .str _ => 1
  | .arr xs => 1 + lsize xs
  | .obj fs => 1 + fsize fs

/-- Measure of an array tail. -/
def lsize : List Json → Nat
  | [] => 0
  | x :: xs => 1 + jsize x + lsize xs

/-- Measure of an object tail. -/
def fsize : List (String × Json) → Nat
  | [] => 0
  | (_, v) :: fs => 1 + jsize v + fsize fs

end

theorem digitChar_toNat {n : Nat} (h : n < 10) : (digitChar n).toNat = 48 + n := by
  interval_cases n <;> decide

theorem isDigit_digitChar {n : Nat} (h : n < 10) : isDigit (digitChar n) = true := by
  interval_cases n <;> decide

theorem natChars_all_digits : ∀ {n : Nat}, ∀ c ∈ natChars n, isDigit c = true := by
  intro n
  induction n using Nat.strong_induction_on with
  | _ n ih =>
    rw [natChars]
    by_cases h : n < 10
    · rw [if_pos h]
      intro c hc
      rw [List.mem_singleton] at hc
      exact hc ▸ isDigit_digitChar h
    · rw [if_neg h]
      intro c hc
      rcases List.mem_append.mp hc with hc | hc
      · exact ih (n / 10) (Nat.div_lt_self (by omega) (by omega)) c hc
      · rw [List.mem_singleton] at hc
        exact hc ▸ isDigit_digitChar (Nat.mod_lt _ (by omega))

theorem natChars_ne_nil {n : Nat} : natChars n ≠ [] := by
  rw [natChars]
  by_cases h : n < 10
  · rw [if_pos h]
    simp
  · rw [if_neg h]
    simp

theorem digitsToNat_append {l : List Char} {c : Char} :
    digitsToNat (l ++ [c]) = 10 * digitsToNat l + (c.toNat - 48) := by
  rw [digitsToNat, digitsToNat, List.foldl_append]
  rfl

theorem digitsToNat_natChars : ∀ {n : Nat}, digitsToNat (natChars n) = n := by
  intro n
  induction n using Nat.strong_induction_on with
  | _ n ih =>
    rw [natChars]
    by_cases h : n < 10
    · rw [if_pos h]
      rw [digitsToNat]
      simp only [List.foldl_cons, List.foldl_nil]
      rw [digitChar_toNat h]
      omega
    · rw [if_neg h]
      rw [digitsToNat_append, ih (n / 10) (Nat.div_lt_self (by omega) (by omega)),
        digitChar_toNat (Nat.mod_lt _ (by omega))]
      omega

theorem intChars_length_pos {n : Int} : 1 ≤ (intChars n).length := by
  rw [intChars]
  by_cases h : n < 0
  · rw [if_pos h]
    simp
  · rw [if_neg h]
    cases hnc : natChars n.toNat with
    | nil => exact absurd hnc natChars_ne_nil
    | cons c cs => simp

mutual

theorem jsize_le_print : ∀ j : Json, jsize j ≤ (printJson j).length
  | .null => by simp [jsize, printJson]
  | .bool true => by simp [jsize, printJson]
  | .bool false => by simp [jsize, printJson]
  | .num n => by
    rw [jsize]
    exact intChars_length_pos
  | .str s => by simp [jsize, printJson, stringChars]
  | .arr [] => by simp [jsize, lsize, printJson]
  | .arr (x :: xs) => by
    have h := lsize_le_printElems (x :: xs) (by simp)
    simp only [jsize, printJson, List.length_cons, List.length_append, List.length_nil]
    omega
  | .obj [] => by simp [jsize, fsize, printJson]
  | .obj (f :: fs) => by
    have h := fsize_le_printFields (f :: fs) (by simp)
    simp only [jsize, printJson, List.length_cons, List.length_append, List.length_nil]
    omega

theorem lsize_le_printElems : ∀ xs : List Json, xs ≠ [] →
    lsize xs ≤ (printElems xs).length + 1
  | [], h => absurd rfl h
  | [x], _ => by
    have h := jsize_le_print x
    simp only [lsize, printElems, List.length_nil]
    omega
  | x :: y :: xs, _ => by
    have h1 := jsize_le_print x
    have h2 := lsize_le_printElems (y :: xs) (by simp)
    simp only [lsize] at h2 ⊢
    simp only [printElems, List.length_append, List.length_cons]
    omega

theorem fsize_le_printFields : ∀ fs : List (String × Json), fs ≠ [] →
    fsize fs ≤ (printFields fs).length + 1
  | [], h => absurd rfl h
  | [(k, v)], _ => by
    have h := jsize_le_print v
    simp only [fsize, printFields, List.length_append, List.length_cons, stringChars,
      List.length_nil]
    omega
  | (k, v) :: g :: fs, _ => by
    have h1 := jsize_le_print v
    have h2 := fsize_le_printFields (g :: fs) (by simp)
    simp only [fsize] at h2 ⊢
    simp only [printFields, List.length_append, List.length_cons, stringChars]
    omega

end

/-- The continuation after a printed numeral never starts with a digit. -/
def headNotDigit (rest : List Char) : Prop :=
  ∀ c, rest.head? = some c → isDigit c = false

theorem takeWhile_append_all {p : Char → Bool} {l r : List Char}
    (hl : ∀ c ∈ l, p c = true) :
    (l ++ r).takeWhile p = l ++ r.takeWhile p := by
  induction l with
  | nil => rfl
  | cons a l ih =>
    have ha := hl a (List.mem_cons_self a l)
    rw [List.cons_append, List.takeWhile_cons, if_pos ha,
      ih (fun c hc => hl c (List.mem_cons_of_mem a hc)), List.cons_append]

theorem dropWhile_append_all {p : Char → Bool} {l r : List Char}
    (hl : ∀ c ∈ l, p c = true) :
    (l ++ r).dropWhile p = r.dropWhile p := by
  induction l with
  | nil => rfl
  | cons a l ih =>
    have ha := hl a (List.mem_cons_self a l)
    rw [List.cons_append, List.dropWhile_cons, if_pos ha,
      ih (fun c hc => hl c (List.mem_cons_of_mem a hc))]

theorem takeWhile_nil_of_head {p : Char → Bool} {r : List Char}
    (hr : ∀ c, r.head? = some c → p c = false) : r.takeWhile p = [] := by
  cases r with
  | nil => rfl
  | cons a r =>
    have := hr a rfl
    simp [List.takeWhile_cons, this]

theorem dropWhile_id_of_head {p : Char → Bool} {r : List Char}
    (hr : ∀ c, r.head? = some c → p c = false) : r.dropWhile p = r := by
  cases r with
  | nil => rfl
  | cons a r =>
    have := hr a rfl
    simp [List.dropWhile_cons, this]

theorem parseNat_natChars {n : Nat} {rest : List Char} (hrest : headNotDigit rest) :
    parseNat (natChars n ++ rest) = some (n, rest) := by
  rw [parseNat]
  simp only [takeWhile_append_all (fun c hc => natChars_all_digits c hc),
    dropWhile_append_all (fun c hc => natChars_all_digits c hc),
    takeWhile_nil_of_head hrest, dropWhile_id_of_head hrest, List.append_nil]
  rw [if_neg (by simp [natChars_ne_nil]), digitsToNat_natChars]

theorem isDigit_ne_chars {c : Char} (h : isDigit c = true) :
    c ≠ 'n' ∧ c ≠ 't' ∧ c ≠ 'f' ∧ c ≠ '"' ∧ c ≠ '[' ∧ c ≠ '\x7b' ∧ c ≠ '-' ∧
      c ≠ ']' ∧ c ≠ '\x7d' ∧ c ≠ ',' := by
  rw [isDigit, band_true_iff, decide_eq_true_eq, decide_eq_true_eq] at h
  refine ⟨?_, ?_, ?_, ?_, ?_, ?_, ?_, ?_, ?_, ?_⟩ <;>
    (intro he; rw [he] at h; revert h; decide)

theorem parseInt_intChars {n : Int} {rest : List Char} (hrest : headNotDigit rest) :
    parseInt (intChars n ++ rest) = some (n, rest) := by
  rw [intChars]
  by_cases hneg : n < 0
  · rw [if_pos hneg]
    show parseInt ('-' :: (natChars n.natAbs ++ rest)) = some (n, rest)
    rw [parseInt]
    rw [parseNat_natChars hrest]
    simp only [Option.map_some', Option.some.injEq, Prod.mk.injEq]
    exact ⟨by omega, trivial⟩
  · rw [if_neg hneg]
    cases hnc : natChars n.toNat with
    | nil => exact absurd hnc natChars_ne_nil
    | cons c cs =>
      have hcd : isDigit c = true := natChars_all_digits c (hnc ▸ List.mem_cons_self c cs)
      have hne := isDigit_ne_chars hcd
      show parseInt (c :: (cs ++ rest)) = some (n, rest)
      rw [parseInt]
      · have hp : parseNat (c :: (cs ++ rest)) = some (n.toNat, rest) := by
          have hx := @parseNat_natChars n.toNat rest hrest
          rwa [hnc, List.cons_append] at hx
        rw [hp]
        simp only [Option.map_some', Option.some.injEq, Prod.mk.injEq]
        exact ⟨by omega, trivial⟩
      · intro r hr
        injection hr with h1 h2
        exact absurd h1 hne.2.2.2.2.2.2.1

/-! ### JSON round-trip: strings and head shapes -/

theorem string_mk_toList (s : String) : String.mk s.toList = s := by
  cases s
  rfl

theorem parseStringBody_cons (c : Char) (rest : List Char) :
    parseStringBody (c :: rest) =
      if c = '\\' then
        (match rest with
         | [] => none
         | e :: rest2 => (parseStringBody rest2).map (fun r => (e :: r.1, r.2)))
      else if c = '"' then some ([], rest)
      else (parseStringBody rest).map (fun r => (c :: r.1, r.2)) := by
  rw [parseStringBody.eq_def]

theorem parseStringBody_print : ∀ (l : List Char) (rest : List Char),
    parseStringBody ((l.map escapeChar).flatten ++ '"' :: rest) = some (l, rest) := by
  intro l
  induction l with
  | nil =>
    intro rest
    show parseStringBody ('"' :: rest) = some ([], rest)
    rw [parseStringBody_cons, if_neg (by decide), if_pos rfl]
  | cons c l ih =>
    intro rest
    simp only [List.map_cons, List.flatten_cons, List.append_assoc]
    rw [escapeChar]
    by_cases hc : (c = '"' || c = '\\') = true
    · rw [if_pos hc]
      show parseStringBody ('\\' :: c :: ((l.map escapeChar).flatten ++ '"' :: rest)) = _
      rw [parseStringBody_cons, if_pos rfl]
      show Option.map (fun r => (c :: r.1, r.2))
          (parseStringBody ((l.map escapeChar).flatten ++ '"' :: rest)) = _
      rw [ih rest]
      rfl
    · rw [if_neg hc]
      have hc1 : ¬(c = '"') := fun h => hc (by rw [h]; rfl)
      have hc2 : ¬(c = '\\') := fun h => hc (by rw [h]; simp)
      show parseStringBody (c :: ((l.map escapeChar).flatten ++ '"' :: rest)) = _
      rw [parseStringBody_cons, if_neg hc2, if_neg hc1]
      rw [ih rest]
      rfl

theorem printJson_head : ∀ j : Json, ∃ c cs, printJson j = c :: cs ∧
    (isDigit c = true ∨ c = '-' ∨ c = 'n' ∨ c = 't' ∨ c = 'f' ∨ c = '"' ∨ c = '[' ∨
      c = '\x7b') := by
  intro j
  cases j with
  | null => exact ⟨'n', _, rfl, by simp⟩
  | bool b =>
    cases b with
    | false => exact ⟨'f', _, rfl, by simp⟩
    | true => exact ⟨'t', _, rfl, by simp⟩
  | num n =>
    show ∃ c cs, intChars n = c :: cs ∧ _
    rw [intChars]
    by_cases h : n < 0
    · rw [if_pos h]
      exact ⟨'-', _, rfl, by simp⟩
    · rw [if_neg h]
      cases hnc : natChars n.toNat with
      | nil => exact absurd hnc natChars_ne_nil
      | cons c cs =>
        exact ⟨c, cs, rfl, Or.inl (natChars_all_digits c (hnc ▸ List.mem_cons_self c cs))⟩
  | str s => exact ⟨'"', _, rfl, by simp⟩
  | arr xs => exact ⟨'[', _, rfl, by simp⟩
  | obj fs => exact ⟨'\x7b', _, rfl, by simp⟩

theorem head_not_bracket {c : Char}
    (h : isDigit c = true ∨ c = '-' ∨ c = 'n' ∨ c = 't' ∨ c = 'f' ∨ c = '"' ∨ c = '[' ∨
      c = '\x7b') : c ≠ ']' ∧ c ≠ '\x7d' := by
  rcases h with h | h | h | h | h | h | h | h
  · exact ⟨(isDigit_ne_chars h).2.2.2.2.2.2.2.1, (isDigit_ne_chars h).2.2.2.2.2.2.2.2.1⟩
  all_goals (subst h; exact ⟨by decide, by decide⟩)

theorem printElems_head {xs : List Json} (h : xs ≠ []) :
    ∃ c cs, printElems xs = c :: cs ∧ c ≠ ']' ∧ c ≠ '\x7d' := by
  cases xs with
  | nil => exact absurd rfl h
  | cons x xs =>
    obtain ⟨c, cs, hx, hprop⟩ := printJson_head x
    cases xs with
    | nil =>
      have he : printElems [x] = printJson x := rfl
      exact ⟨c, cs, by rw [he, hx], head_not_bracket hprop⟩
    | cons y ys =>
      have he : printElems (x :: y :: ys) = printJson x ++ ',' :: printElems (y :: ys) := rfl
      exact ⟨c, cs ++ ',' :: printElems (y :: ys),
        by rw [he, hx, List.cons_append], head_not_bracket hprop⟩

theorem printFields_head {fs : List (String × Json)} (h : fs ≠ []) :
    ∃ cs, printFields fs = '"' :: cs := by
  cases fs with
  | nil => exact absurd rfl h
  | cons f fs =>
    obtain ⟨k, v⟩ := f
    cases fs with
    | nil =>
      have he : printFields [(k, v)] = stringChars k ++ ':' :: printJson v := rfl
      refine ⟨((List.map escapeChar k.toList).flatten ++ ['"']) ++ ':' :: printJson v, ?_⟩
      rw [he, stringChars, List.cons_append]
      simp [List.append_assoc]
    | cons g gs =>
      have he : printFields ((k, v) :: g :: gs) =
          stringChars k ++ ':' :: printJson v ++ ',' :: printFields (g :: gs) := rfl
      refine ⟨((List.map escapeChar k.toList).flatten ++ ['"']) ++
        (':' :: (printJson v ++ ',' :: printFields (g :: gs))), ?_⟩
      rw [he, stringChars, List.cons_append]
      simp [List.append_assoc]

theorem jsize_pos : ∀ j : Json, 1 ≤ jsize j := by
  intro j
  cases j <;> simp [jsize]

theorem lsize_pos {xs : List Json} (h : xs ≠ []) : 1 ≤ lsize xs := by
  cases xs with
  | nil => exact absurd rfl h
  | cons x xs =>
    rw [lsize]
    omega

theorem fsize_pos {fs : List (String × Json)} (h : fs ≠ []) : 1 ≤ fsize fs := by
  cases fs with
  | nil => exact absurd rfl h
  | cons f fs =>
    obtain ⟨k, v⟩ := f
    rw [fsize]
    omega

theorem headNotDigit_nil : headNotDigit [] := by
  intro c hc
  exact Option.noConfusion hc

/-- Unfolding equation for `parseVal` at a successor fuel value and a
nonempty input, usable for rewriting. -/
theorem parseVal_succ_cons (fuel : Nat) (c : Char) (rest : List Char) :
    parseVal (fuel + 1) (c :: rest) =
    (if c = 'n' then
      match rest with
      | 'u' :: 'l' :: 'l' :: r => some (.null, r)
      | _ => none
    else if c = 't' then
      match rest with
      | 'r' :: 'u' :: 'e' :: r => some (.bool true, r)
      | _ => none
    else if c = 'f' then
      match rest with
      | 'a' :: 'l' :: 's' :: 'e' :: r => some (.bool false, r)
      | _ => none
    else if c = '"' then
      (parseStringBody rest).map (fun r => (.str (String.mk r.1), r.2))
    else if c = '[' then
      match rest with
      | r0 :: r1 =>
        if r0 = ']' then some (.arr [], r1)
        else (parseElems fuel (r0 :: r1)).map (fun r => (.arr r.1, r.2))
      | [] => (parseElems fuel []).map (fun r => (.arr r.1, r.2))
    else if c = '\x7b' then
      match rest with
      | r0 :: r1 =>
        if r0 = '\x7d' then some (.obj [], r1)
        else (parseFields fuel (r0 :: r1)).map (fun r => (.obj r.1, r.2))
      | [] => (parseFields fuel []).map (fun r => (.obj r.1, r.2))
    else
      (parseInt (c :: rest)).map (fun r => (.num r.1, r.2))) := by
  rw [parseVal.eq_def]

theorem headNotDigit_cons {c : Char} {r : List Char} (h : isDigit c = false) :
    headNotDigit (c :: r) := by
  intro e he
  rw [List.head?_cons] at he
  injection he with he'
  exact he' ▸ h

theorem intChars_head (n : Int) :
    ∃ c cs, intChars n = c :: cs ∧ (isDigit c = true ∨ c = '-') := by
  rw [intChars]
  by_cases h : n < 0
  · rw [if_pos h]
    exact ⟨'-', _, rfl, Or.inr rfl⟩
  · rw [if_neg h]
    cases hnc : natChars n.toNat with
    | nil => exact absurd hnc natChars_ne_nil
    | cons c cs =>
      exact ⟨c, cs, rfl, Or.inl (natChars_all_digits c (hnc ▸ List.mem_cons_self c cs))⟩

/-- The parser reads back exactly what the printer wrote, given enough
fuel and a continuation that cannot extend a numeral. -/
theorem parse_print_all : ∀ fuel : Nat,
    (∀ (j : Json) (rest : List Char), jsize j ≤ fuel → headNotDigit rest →
      parseVal fuel (printJson j ++ rest) = some (j, rest)) ∧
    (∀ (xs : List Json) (rest : List Char), xs ≠ [] → lsize xs ≤ fuel →
      parseElems fuel (printElems xs ++ ']' :: rest) = some (xs, rest)) ∧
    (∀ (fs : List (String × Json)) (rest : List Char), fs ≠ [] → fsize fs ≤ fuel →
      parseFields fuel (printFields fs ++ '\x7d' :: rest) = some (fs, rest)) := by
  intro fuel
  induction fuel with
  | zero =>
    refine ⟨?_, ?_, ?_⟩
    · intro j rest hsize hrest
      exact absurd hsize (by have := jsize_pos j; omega)
    · intro xs rest hne hsize
      exact absurd hsize (by have := lsize_pos hne; omega)
    · intro fs rest hne hsize
      exact absurd hsize (by have := fsize_pos hne; omega)
  | succ fuel ih =>
    obtain ⟨ihV, ihE, ihF⟩ := ih
    refine ⟨?_, ?_, ?_⟩
    · intro j rest hsize hrest
      cases j with
      | null =>
        show parseVal (fuel + 1) ('n' :: 'u' :: 'l' :: 'l' :: rest) = some (.null, rest)
        rw [parseVal_succ_cons, if_pos rfl]
        rfl
      | bool b =>
        cases b with
        | true =>
          show parseVal (fuel + 1) ('t' :: 'r' :: 'u' :: 'e' :: rest) = some (.bool true, rest)
          rw [parseVal_succ_cons, if_neg (by decide), if_pos rfl]
          rfl
        | false =>
          show parseVal (fuel + 1) ('f' :: 'a' :: 'l' :: 's' :: 'e' :: rest) =
            some (.bool false, rest)
          rw [parseVal_succ_cons, if_neg (by decide), if_neg (by decide), if_pos rfl]
          rfl
      | num n =>
        obtain ⟨c, cs, hic, hcp⟩ := intChars_head n
        have hne6 : ¬(c = 'n') ∧ ¬(c = 't') ∧ ¬(c = 'f') ∧ ¬(c = '"') ∧ ¬(c = '[') ∧
            ¬(c = '\x7b') := by
          rcases hcp with h | rfl
          · have hd := isDigit_ne_chars h
            exact ⟨hd.1, hd.2.1, hd.2.2.1, hd.2.2.2.1, hd.2.2.2.2.1, hd.2.2.2.2.2.1⟩
          · exact ⟨by decide, by decide, by decide, by decide, by decide, by decide⟩
        have hinput : printJson (.num n) ++ rest = c :: (cs ++ rest) := by
          show intChars n ++ rest = _
          rw [hic]
          rfl
        rw [hinput, parseVal_succ_cons, if_neg hne6.1, if_neg hne6.2.1, if_neg hne6.2.2.1,
          if_neg hne6.2.2.2.1, if_neg hne6.2.2.2.2.1, if_neg hne6.2.2.2.2.2]
        have hpi : parseInt (c :: (cs ++ rest)) = some (n, rest) := by
          have hx := @parseInt_intChars n rest hrest
          rwa [hic, List.cons_append] at hx
        rw [hpi]
        rfl
      | str s =>
        have hinput : printJson (.str s) ++ rest =
            '"' :: ((s.toList.map escapeChar).flatten ++ '"' :: rest) := by
          show stringChars s ++ rest = _
          simp [stringChars, List.append_assoc]
        rw [hinput, parseVal_succ_cons, if_neg (by decide), if_neg (by decide),
          if_neg (by decide), if_pos rfl]
        rw [parseStringBody_print]
        simp only [Option.map_some']
        rw [string_mk_toList]
      | arr xs =>
        cases xs with
        | nil =>
          show parseVal (fuel + 1) ('[' :: ']' :: rest) = some (.arr [], rest)
          rw [parseVal_succ_cons, if_neg (by decide), if_neg (by decide), if_neg (by decide),
            if_neg (by decide), if_pos rfl]
          show (if (']' : Char) = ']' then some (Json.arr [], rest)
            else (parseElems fuel (']' :: rest)).map (fun r => (Json.arr r.1, r.2))) = _
          rw [if_pos rfl]
        | cons x xs =>
          obtain ⟨c0, cs0, hpe, hc0⟩ := @printElems_head (x :: xs) (by simp)
          have hinput : printJson (.arr (x :: xs)) ++ rest =
              '[' :: (c0 :: (cs0 ++ ']' :: rest)) := by
            show ('[' :: (printElems (x :: xs) ++ [']'])) ++ rest = _
            rw [hpe]
            simp [List.append_assoc]
          rw [hinput, parseVal_succ_cons, if_neg (by decide), if_neg (by decide),
            if_neg (by decide), if_neg (by decide), if_pos rfl]
          show (if c0 = ']' then some (Json.arr [], cs0 ++ ']' :: rest)
            else (parseElems fuel (c0 :: (cs0 ++ ']' :: rest))).map
              (fun r => (Json.arr r.1, r.2))) = _
          rw [if_neg hc0.1]
          have hre : c0 :: (cs0 ++ ']' :: rest) = printElems (x :: xs) ++ ']' :: rest := by
            rw [hpe]
            rfl
          rw [hre]
          rw [jsize] at hsize
          rw [ihE (x :: xs) rest (by simp) (by omega)]
          rfl
      | obj fs =>
        cases fs with
        | nil =>
          show parseVal (fuel + 1) ('\x7b' :: '\x7d' :: rest) = some (.obj [], rest)
          rw [parseVal_succ_cons, if_neg (by decide), if_neg (by decide), if_neg (by decide),
            if_neg (by decide), if_neg (by decide), if_pos rfl]
          show (if ('\x7d' : Char) = '\x7d' then some (Json.obj [], rest)
            else (parseFields fuel ('\x7d' :: rest)).map (fun r => (Json.obj r.1, r.2))) = _
          rw [if_pos rfl]
        | cons f fs =>
          obtain ⟨cs0, hpf⟩ := @printFields_head (f :: fs) (by simp)
          have hinput : printJson (.obj (f :: fs)) ++ rest =
              '\x7b' :: ('"' :: (cs0 ++ '\x7d' :: rest)) := by
            show ('\x7b' :: (printFields (f :: fs) ++ ['\x7d'])) ++ rest = _
            rw [hpf]
            simp [List.append_assoc]
          rw [hinput, parseVal_succ_cons, if_neg (by decide), if_neg (by decide),
            if_neg (by decide), if_neg (by decide), if_neg (by decide), if_pos rfl]
          show (if ('"' : Char) = '\x7d' then some (Json.obj [], cs0 ++ '\x7d' :: rest)
            else (parseFields fuel ('"' :: (cs0 ++ '\x7d' :: rest))).map
              (fun r => (Json.obj r.1, r.2))) = _
          rw [if_neg (by decide)]
          have hre : '"' :: (cs0 ++ '\x7d' :: rest) = printFields (f :: fs) ++ '\x7d' :: rest := by
            rw [hpf]
            rfl
          rw [hre]
          rw [jsize] at hsize
          rw [ihF (f :: fs) rest (by simp) (by omega)]
          rfl
    · intro xs rest hne hsize
      cases xs with
      | nil => exact absurd rfl hne
      | cons x xs =>
        cases xs with
        | nil =>
          show parseElems (fuel + 1) (printJson x ++ ']' :: rest) = some ([x], rest)
          rw [parseElems]
          rw [lsize, lsize] at hsize
          rw [ihV x (']' :: rest) (by omega) (headNotDigit_cons (by decide))]
          rfl
        | cons y ys =>
          have hinput : printElems (x :: y :: ys) ++ ']' :: rest =
              printJson x ++ (',' :: (printElems (y :: ys) ++ ']' :: rest)) := by
            have he : printElems (x :: y :: ys) =
                printJson x ++ ',' :: printElems (y :: ys) := rfl
            rw [he]
            simp [List.append_assoc]
          rw [hinput, parseElems]
          rw [lsize] at hsize
          rw [ihV x (',' :: (printElems (y :: ys) ++ ']' :: rest)) (by omega)
            (headNotDigit_cons (by decide))]
          show (parseElems fuel (printElems (y :: ys) ++ ']' :: rest)).map
            (fun r => (x :: r.1, r.2)) = some (x :: y :: ys, rest)
          rw [ihE (y :: ys) rest (by simp) (by have := jsize_pos x; omega)]
          rfl
    · intro fs rest hne hsize
      cases fs with
      | nil => exact absurd rfl hne
      | cons f fs =>
        obtain ⟨k, v⟩ := f
        cases fs with
        | nil =>
          have hinput : printFields [(k, v)] ++ '\x7d' :: rest =
              '"' :: ((k.toList.map escapeChar).flatten ++
                '"' :: (':' :: (printJson v ++ '\x7d' :: rest))) := by
            have he : printFields [(k, v)] = stringChars k ++ ':' :: printJson v := rfl
            rw [he, stringChars]
            simp [List.append_assoc]
          rw [hinput, parseFields]
          show (match parseStringBody ((k.toList.map escapeChar).flatten ++
              '"' :: (':' :: (printJson v ++ '\x7d' :: rest))) with
            | none => none
            | some (kk, rest2) =>
              match rest2 with
              | ':' :: rest3 =>
                match parseVal fuel rest3 with
                | none => none
                | some (vv, rest4) =>
                  match rest4 with
                  | ',' :: rest5 => (parseFields fuel rest5).map
                      (fun r => ((String.mk kk, vv) :: r.1, r.2))
                  | '\x7d' :: rest5 => some ([(String.mk kk, vv)], rest5)
                  | _ => none
              | _ => none) = some ([(k, v)], rest)
          rw [parseStringBody_print]
          show (match parseVal fuel (printJson v ++ '\x7d' :: rest) with
            | none => none
            | some (vv, rest4) =>
              match rest4 with
              | ',' :: rest5 => (parseFields fuel rest5).map
                  (fun r => ((String.mk k.toList, vv) :: r.1, r.2))
              | '\x7d' :: rest5 => some ([(String.mk k.toList, vv)], rest5)
              | _ => none) = some ([(k, v)], rest)
          rw [fsize] at hsize
          rw [ihV v ('\x7d' :: rest) (by omega) (headNotDigit_cons (by decide))]
          show some ([(String.mk k.toList, v)], rest) = some ([(k, v)], rest)
          rw [string_mk_toList]
        | cons g gs =>
          have hinput : printFields ((k, v) :: g :: gs) ++ '\x7d' :: rest =
              '"' :: ((k.toList.map escapeChar).flatten ++
                '"' :: (':' :: (printJson v ++
                  ',' :: (printFields (g :: gs) ++ '\x7d' :: rest)))) := by
            have he : printFields ((k, v) :: g :: gs) =
                stringChars k ++ ':' :: printJson v ++ ',' :: printFields (g :: gs) := rfl
            rw [he, stringChars]
            simp [List.append_assoc]
          rw [hinput, parseFields]
          show (match parseStringBody ((k.toList.map escapeChar).flatten ++
              '"' :: (':' :: (printJson v ++
                ',' :: (printFields (g :: gs) ++ '\x7d' :: rest)))) with
            | none => none
            | some (kk, rest2) =>
              match rest2 with
              | ':' :: rest3 =>
                match parseVal fuel rest3 with
                | none => none
                | some (vv, rest4) =>
                  match rest4 with
                  | ',' :: rest5 => (parseFields fuel rest5).map
                      (fun r => ((String.mk kk, vv) :: r.1, r.2))
                  | '\x7d' :: rest5 => some ([(String.mk kk, vv)], rest5)
                  | _ => none
              | _ => none) = some ((k, v) :: g :: gs, rest)
          rw [parseStringBody_print]
          show (match parseVal fuel (printJson v ++
              ',' :: (printFields (g :: gs) ++ '\x7d' :: rest)) with
            | none => none
            | some (vv, rest4) =>
              match rest4 with
              | ',' :: rest5 => (parseFields fuel rest5).map
                  (fun r => ((String.mk k.toList, vv) :: r.1, r.2))
              | '\x7d' :: rest5 => some ([(String.mk k.toList, vv)], rest5)
              | _ => none) = some ((k, v) :: g :: gs, rest)
          rw [fsize] at hsize
          rw [ihV v (',' :: (printFields (g :: gs) ++ '\x7d' :: rest)) (by omega)
            (headNotDigit_cons (by decide))]
          show (parseFields fuel (printFields (g :: gs) ++ '\x7d' :: rest)).map
            (fun r => ((String.mk k.toList, v) :: r.1, r.2)) = some ((k, v) :: g :: gs, rest)
          rw [ihF (g :: gs) rest (by simp) (by have := jsize_pos v; omega)]
          rw [string_mk_toList]
          rfl

/-! ### Claims C8 and C9 -/

/-- C8: `deserializeState` performs no shape validation — the TS body is
`JSON.parse(json) as GameState`, and the `as` cast checks nothing at
runtime.  On input `"42"` (well-formed JSON that is in no way a
`GameState`) it succeeds and hands back the number 42 instead of failing
with a distinct error, contradicting the spec's requirement that decode
must fail on input that does not match the expected shape. -/
theorem C8_no_shape_validation :
    deserializeState "42" = some (.num 42) ∧
    isGameStateShape (.num 42) = false := by
  exact ⟨rfl, rfl⟩

/-- C9: round-trip law — serializing any reachable state with
`serializeState` and parsing the result back yields exactly the state's
runtime data tree `toJson s`, i.e. a value deep-equal to `s`.  (The proof
does not need reachability: the printer escapes quotes and backslashes,
so the round trip holds for every state.) -/
theorem C9_roundtrip :
    ∀ s : GameState, Reachable s →
      deserializeState (serializeState s) = some (toJson s) := by
  intro s h
  have hmain := (parse_print_all ((printJson (toJson s)).length + 1)).1 (toJson s) []
    (by have := jsize_le_print (toJson s); omega) headNotDigit_nil
  rw [List.append_nil] at hmain
  rw [deserializeState]
  have h1 : (serializeState s).toList = printJson (toJson s) := rfl
  have h2 : (serializeState s).length = (printJson (toJson s)).length := rfl
  rw [h1, h2, hmain]

/-- C9 witness: the round trip at the (reachable) initial state. -/
theorem C9_witness :
    Reachable createInitialState ∧
    deserializeState (serializeState createInitialState) = some (toJson createInitialState) :=
  ⟨Reachable.init, C9_roundtrip createInitialState Reachable.init⟩

end Chess
